import Mathlib

/-!
# A singly linked list with injected allocator (`linked_list.c`)

Shallow embedding of `src/linked_list.c`.  The C program manipulates a heap of
dynamically allocated blocks through pointers, so the embedding carries an
explicit heap: a finite table from addresses to the object stored there.

* a pointer is an `Option Addr`, `none` being `NULL`;
* every library function takes the program state (the two static function
  pointer slots, the heap, and the history of allocator calls) and returns
  `Option (result × State)`; the outer `none` stands for a run that has no
  defined result in C (a dereference of a pointer that does not point to a
  live object of the right type, or a loop that never terminates);
* `size_t` counters are natural numbers reduced modulo `2 ^ 64` at every
  increment;
* a `while` loop is a recursive function with a step budget.  A loop that
  counts up to `index` gets `index + 1` steps, which it cannot exhaust for an
  `index` that is a `size_t`.  A loop that walks until `NULL` gets one step
  more than there are live blocks: a walk that takes more steps has come back
  to a block it has already visited, and the C loop does not terminate;
* the allocator routines are supplied by the caller.  The allocate routine is
  a function of the history of allocator calls; theorems that need it state
  what they assume of its answer (that the block handed out is not in use).
-/

namespace LinkedList

/-- Address of a dynamically allocated block; `NULL` is `none : Option Addr`. -/
abbrev Addr := Nat

/-- Number of values of `size_t` (64-bit). -/
def SIZE_MOD : Nat := 2 ^ 64

/-- The C constant `SIZE_MAX`. -/
def SIZE_MAX : Nat := 2 ^ 64 - 1

/-- Modelled from the spec: `struct node` of the absent header `linked_list.h`
("holds one unsigned scalar value and an ownership link to the next Node (or
none, if last)"); the field names are the ones `linked_list.c` uses. -/
structure node where
  data : Nat
  next : Option Addr
deriving DecidableEq

/-- Modelled from the spec: `struct linked_list` of the absent header
("holds a single ownership link to the first Node (or none, if empty)"). -/
structure linked_list where
  head : Option Addr
deriving DecidableEq

/-- Modelled from the spec: `struct iterator` of the absent header ("a
back-reference to its List Engine, a non-owning reference to a current Node,
the zero-based index of that node, and a cached copy of the node's value"). -/
structure iterator where
  ll : Option Addr
  current_node : Option Addr
  current_index : Nat
  data : Nat
deriving DecidableEq

/-- Modelled from the spec: `sizeof(struct linked_list)`, one pointer. -/
def sizeof_linked_list : Nat := 8

/-- Modelled from the spec: `sizeof(struct node)`, an `unsigned int` and a pointer. -/
def sizeof_node : Nat := 16

/-- Modelled from the spec: `sizeof(struct iterator)`, two pointers, a `size_t`
and an `unsigned int`. -/
def sizeof_iterator : Nat := 32

/-- What a live block holds.  A block fresh from the allocator is `raw`
(indeterminate contents); it becomes a typed object when its fields are
written. -/
inductive Obj where
  | raw
  | nodeObj (n : node)
  | listObj (l : linked_list)
  | iterObj (i : iterator)
deriving DecidableEq

/-- The heap: the live blocks with their contents. -/
abbrev Heap := List (Addr × Obj)

/-- Addresses of the live blocks. -/
def keys (h : Heap) : List Addr := h.map Prod.fst

/-- Contents of the block at `a`, `none` when `a` is not live. -/
def read : Heap → Addr → Option Obj
  | [], _ => none
  | (b, o) :: h, a => if a = b then some o else read h a

/-- The heap with the contents of the block at `a` replaced by `o`. -/
def overwrite : Heap → Addr → Obj → Heap
  | [], _, _ => []
  | (b, x) :: h, a, o =>
    if b = a then (b, o) :: overwrite h a o else (b, x) :: overwrite h a o

/-- Overwrite the live block at `a`; writing through a pointer to no live
block has no defined result. -/
def store (h : Heap) (a : Addr) (o : Obj) : Option Heap :=
  match read h a with
  | none => none
  | some _ => some (overwrite h a o)

/-- The heap with a raw block at `a` added. -/
def alloc (h : Heap) (a : Addr) : Heap := (a, Obj.raw) :: h

/-- The heap with the block at `a` removed. -/
def release : Heap → Addr → Heap
  | [], _ => []
  | (b, x) :: h, a => if b = a then release h a else (b, x) :: release h a

/-- Read `*p` for `p : struct node *`. -/
def read_node (h : Heap) (p : Addr) : Option node :=
  match read h p with
  | some (Obj.nodeObj n) => some n
  | _ => none

/-- Read `*p` for `p : struct linked_list *`. -/
def read_list (h : Heap) (p : Addr) : Option linked_list :=
  match read h p with
  | some (Obj.listObj l) => some l
  | _ => none

/-- Read `*p` for `p : struct iterator *`. -/
def read_iter (h : Heap) (p : Addr) : Option iterator :=
  match read h p with
  | some (Obj.iterObj i) => some i
  | _ => none

/-- A `struct node **`: the address of a link field, either `&ll->head` or
`&n->next`. -/
inductive Slot where
  | head (ll : Addr)
  | next (n : Addr)
deriving DecidableEq

/-- Read `*curr` for `curr : struct node **`. -/
def load_slot (h : Heap) : Slot → Option (Option Addr)
  | Slot.head l => (read_list h l).map fun L => L.head
  | Slot.next n => (read_node h n).map fun N => N.next

/-- Write `*curr = v` for `curr : struct node **`. -/
def store_slot (h : Heap) : Slot → Option Addr → Option Heap
  | Slot.head l, v =>
    match read_list h l with
    | some _ => store h l (Obj.listObj { head := v })
    | none => none
  | Slot.next n, v =>
    match read_node h n with
    | some N => store h n (Obj.nodeObj { N with next := v })
    | none => none

/-- One call of a registered allocator routine, newest first in the history. -/
inductive Event where
  | malloc (size : Nat) (ret : Option Addr)
  | free (addr : Addr)
deriving DecidableEq

/-- A `malloc()`-like routine supplied by the caller.  Its answer to a request
(an address, or `none` for `NULL`) may depend on every earlier call of the
allocator routines. -/
structure MallocFn where
  run : List Event → Nat → Option Addr

/-- A `free()`-like routine supplied by the caller, known by its address only:
calling it releases the block. -/
abbrev FreeFn := Nat

/-- Program state: the two static slots `malloc_fptr` and `free_fptr`, the
heap, and the history of allocator calls (newest first). -/
structure State where
  malloc_fptr : Option MallocFn
  free_fptr : Option FreeFn
  heap : Heap
  trace : List Event

/-- The call `malloc_fptr(size)`: the routine answers from the history of
calls; a block handed out joins the heap with indeterminate contents. -/
def call_malloc (st : State) (f : MallocFn) (size : Nat) : Option Addr × State :=
  match f.run st.trace size with
  | none => (none, { st with trace := Event.malloc size none :: st.trace })
  | some a =>
    (some a, { st with heap := alloc st.heap a,
                       trace := Event.malloc size (some a) :: st.trace })

/-- The call `free_fptr(addr)`: the block leaves the heap. -/
def call_free (st : State) (a : Addr) : State :=
  { st with heap := release st.heap a, trace := Event.free a :: st.trace }

/-- `linked_list_create`. -/
def linked_list_create (st : State) : Option (Option Addr × State) :=
  match st.malloc_fptr with
  | none => some (none, st)
  | some f =>
    match call_malloc st f sizeof_linked_list with
    | (none, st1) => some (none, st1)
    | (some ll, st1) =>
      match store st1.heap ll (Obj.listObj { head := none }) with
      | none => none
      | some h => some (some ll, { st1 with heap := h })

/-- The loop of `linked_list_delete`: `while(curr != NULL)`, saving the next
link before the node is freed. -/
def delete_loop : Nat → State → Option Addr → Option State
  | 0, _, _ => none
  | _ + 1, st, none => some st
  | fuel + 1, st, some curr =>
    match read_node st.heap curr with
    | none => none
    | some n => delete_loop fuel (call_free st curr) n.next

/-- `linked_list_delete`. -/
def linked_list_delete (st : State) (ll : Option Addr) : Option (Bool × State) :=
  match ll, st.free_fptr with
  | some l, some _ =>
    match read_list st.heap l with
    | none => none
    | some L =>
      match delete_loop (st.heap.length + 1) st L.head with
      | none => none
      | some st1 => some (true, call_free st1 l)
  | _, _ => some (false, st)

/-- The loop of `linked_list_size`: `while(curr != NULL){ size++; curr = curr->next; }`. -/
def size_loop (h : Heap) : Nat → Option Addr → Nat → Option Nat
  | 0, _, _ => none
  | _ + 1, none, size => some size
  | fuel + 1, some curr, size =>
    match read_node h curr with
    | none => none
    | some n => size_loop h fuel n.next ((size + 1) % SIZE_MOD)

/-- `linked_list_size`.  The function writes nothing, so it returns no state. -/
def linked_list_size (st : State) (ll : Option Addr) : Option Nat :=
  match ll with
  | none => some SIZE_MAX
  | some l =>
    match read_list st.heap l with
    | none => none
    | some L => size_loop st.heap (st.heap.length + 1) L.head 0

/-- The loop of `linked_list_insert_end`: `while(*curr != NULL) curr = &(*curr)->next;`. -/
def last_slot (h : Heap) : Nat → Slot → Option Slot
  | 0, _ => none
  | fuel + 1, curr =>
    match load_slot h curr with
    | none => none
    | some none => some curr
    | some (some a) => last_slot h fuel (Slot.next a)

/-- `linked_list_insert_end`. -/
def linked_list_insert_end (st : State) (ll : Option Addr) (data : Nat) :
    Option (Bool × State) :=
  match ll, st.malloc_fptr with
  | some l, some f =>
    match last_slot st.heap (st.heap.length + 1) (Slot.head l) with
    | none => none
    | some curr =>
      match call_malloc st f sizeof_node with
      | (none, st1) => some (false, st1)
      | (some new_node, st1) =>
        match store st1.heap new_node (Obj.nodeObj { data := data, next := none }) with
        | none => none
        | some h1 =>
          match store_slot h1 curr (some new_node) with
          | none => none
          | some h2 => some (true, { st1 with heap := h2 })
  | _, _ => some (false, st)

/-- `linked_list_insert_front`. -/
def linked_list_insert_front (st : State) (ll : Option Addr) (data : Nat) :
    Option (Bool × State) :=
  match ll, st.malloc_fptr with
  | some l, some f =>
    match call_malloc st f sizeof_node with
    | (none, st1) => some (false, st1)
    | (some new_node, st1) =>
      match read_list st1.heap l with
      | none => none
      | some L =>
        match store st1.heap new_node (Obj.nodeObj { data := data, next := L.head }) with
        | none => none
        | some h1 =>
          match store_slot h1 (Slot.head l) (some new_node) with
          | none => none
          | some h2 => some (true, { st1 with heap := h2 })
  | _, _ => some (false, st)

/-- The loop shared by `linked_list_insert` and `linked_list_remove`:
`while(*curr != NULL && curr_idx < index){ curr = &(*curr)->next; curr_idx++; }`. -/
def walk_slot (h : Heap) (index : Nat) : Nat → Slot → Nat → Option (Slot × Nat)
  | 0, _, _ => none
  | fuel + 1, curr, curr_idx =>
    match load_slot h curr with
    | none => none
    | some none => some (curr, curr_idx)
    | some (some a) =>
      if curr_idx < index then
        walk_slot h index fuel (Slot.next a) ((curr_idx + 1) % SIZE_MOD)
      else some (curr, curr_idx)

/-- `linked_list_insert`. -/
def linked_list_insert (st : State) (ll : Option Addr) (index : Nat) (data : Nat) :
    Option (Bool × State) :=
  match ll, st.malloc_fptr, st.free_fptr with
  | some l, some f, some _ =>
    match call_malloc st f sizeof_node with
    | (none, st1) => some (false, st1)
    | (some new_node, st1) =>
      match walk_slot st1.heap index (index + 1) (Slot.head l) 0 with
      | none => none
      | some (curr, curr_idx) =>
        if curr_idx ≠ index then some (false, call_free st1 new_node)
        else
          match load_slot st1.heap curr with
          | none => none
          | some nx =>
            match store st1.heap new_node (Obj.nodeObj { data := data, next := nx }) with
            | none => none
            | some h1 =>
              match store_slot h1 curr (some new_node) with
              | none => none
              | some h2 => some (true, { st1 with heap := h2 })
  | _, _, _ => some (false, st)

/-- The loop of `linked_list_find`. -/
def find_loop (h : Heap) (data : Nat) : Nat → Option Addr → Nat → Option Nat
  | 0, _, _ => none
  | _ + 1, none, _ => some SIZE_MAX
  | fuel + 1, some curr, curr_idx =>
    match read_node h curr with
    | none => none
    | some n =>
      if n.data = data then some curr_idx
      else find_loop h data fuel n.next ((curr_idx + 1) % SIZE_MOD)

/-- `linked_list_find`.  The function writes nothing, so it returns no state. -/
def linked_list_find (st : State) (ll : Option Addr) (data : Nat) : Option Nat :=
  match ll with
  | none => some SIZE_MAX
  | some l =>
    match read_list st.heap l with
    | none => none
    | some L => find_loop st.heap data (st.heap.length + 1) L.head 0

/-- `linked_list_remove`. -/
def linked_list_remove (st : State) (ll : Option Addr) (index : Nat) :
    Option (Bool × State) :=
  match ll, st.free_fptr with
  | some l, some _ =>
    match walk_slot st.heap index (index + 1) (Slot.head l) 0 with
    | none => none
    | some (curr, curr_idx) =>
      if curr_idx ≠ index then some (false, st)
      else
        match load_slot st.heap curr with
        | none => none
        | some none => some (false, st)
        | some (some temp) =>
          match read_node st.heap temp with
          | none => none
          | some n =>
            match store_slot st.heap curr n.next with
            | none => none
            | some h1 => some (true, call_free { st with heap := h1 } temp)
  | _, _ => some (false, st)

/-- The loop of `linked_list_create_iterator`:
`while(curr != NULL && curr_idx < index){ curr = curr->next; curr_idx++; }`. -/
def walk_node (h : Heap) (index : Nat) : Nat → Option Addr → Nat → Option (Option Addr × Nat)
  | 0, _, _ => none
  | _ + 1, none, curr_idx => some (none, curr_idx)
  | fuel + 1, some curr, curr_idx =>
    if curr_idx < index then
      match read_node h curr with
      | none => none
      | some n => walk_node h index fuel n.next ((curr_idx + 1) % SIZE_MOD)
    else some (some curr, curr_idx)

/-- `linked_list_create_iterator`. -/
def linked_list_create_iterator (st : State) (ll : Option Addr) (index : Nat) :
    Option (Option Addr × State) :=
  match ll, st.malloc_fptr, st.free_fptr with
  | some l, some f, some _ =>
    match call_malloc st f sizeof_iterator with
    | (none, st1) => some (none, st1)
    | (some it, st1) =>
      match read_list st1.heap l with
      | none => none
      | some L =>
        match walk_node st1.heap index (index + 1) L.head 0 with
        | none => none
        | some (none, _) => some (none, call_free st1 it)
        | some (some curr, curr_idx) =>
          if curr_idx ≠ index then some (none, call_free st1 it)
          else
            match read_node st1.heap curr with
            | none => none
            | some n =>
              match store st1.heap it (Obj.iterObj
                  { ll := some l, current_node := some curr,
                    current_index := index, data := n.data }) with
              | none => none
              | some h1 => some (some it, { st1 with heap := h1 })
  | _, _, _ => some (none, st)

/-- `linked_list_delete_iterator`. -/
def linked_list_delete_iterator (st : State) (iter : Option Addr) : Bool × State :=
  match iter, st.free_fptr with
  | some it, some _ => (true, call_free st it)
  | _, _ => (false, st)

/-- `linked_list_iterate`. -/
def linked_list_iterate (st : State) (iter : Option Addr) : Option (Bool × State) :=
  match iter with
  | none => some (false, st)
  | some it =>
    match read_iter st.heap it with
    | none => none
    | some I =>
      match I.current_node with
      | none => some (false, st)
      | some cn =>
        match read_node st.heap cn with
        | none => none
        | some n =>
          match n.next with
          | none => some (false, st)
          | some nx =>
            match read_node st.heap nx with
            | none => none
            | some n2 =>
              match store st.heap it (Obj.iterObj
                  { I with current_node := some nx,
                           current_index := (I.current_index + 1) % SIZE_MOD,
                           data := n2.data }) with
              | none => none
              | some h1 => some (true, { st with heap := h1 })

/-- `linked_list_register_malloc`. -/
def linked_list_register_malloc (st : State) (malloc : Option MallocFn) : Bool × State :=
  match malloc with
  | none => (false, st)
  | some f => (true, { st with malloc_fptr := some f })

/-- `linked_list_register_free`. -/
def linked_list_register_free (st : State) (free : Option FreeFn) : Bool × State :=
  match free with
  | none => (false, st)
  | some f => (true, { st with free_fptr := some f })


/-! ## Representation predicates -/

/-- The nodes reachable from the pointer `p`, in order, are exactly `ns`
(address and value of each) and the last one has a `NULL` next link. -/
def chain (h : Heap) : Option Addr → List (Addr × Nat) → Prop
  | p, [] => p = none
  | p, (a, v) :: ns => p = some a ∧ ∃ nx, read_node h a = some ⟨v, nx⟩ ∧ chain h nx ns

/-- The block at `ll` is a list header whose chain of nodes is `ns`. -/
def list_nodes (h : Heap) (ll : Addr) (ns : List (Addr × Nat)) : Prop :=
  ∃ p, read_list h ll = some ⟨p⟩ ∧ chain h p ns

/-- The list at `ll` holds the sequence of values `l`. -/
def list_holds (h : Heap) (ll : Addr) (l : List Nat) : Prop :=
  ∃ ns, list_nodes h ll ns ∧ ns.map Prod.snd = l

/-- The link field reached from `s` after stepping over the nodes `ns`. -/
def slot_after : Slot → List (Addr × Nat) → Slot
  | s, [] => s
  | _, (a, _) :: ns => slot_after (Slot.next a) ns

/-- Pointer to the first node of a chain of nodes, `NULL` when there is none. -/
def first_ptr : List (Addr × Nat) → Option Addr
  | [] => none
  | (a, _) :: _ => some a

/-! ## Sequences of insert calls -/

/-- One call of an insert function of the library on a given list. -/
inductive InsertOp where
  | front (data : Nat)
  | back (data : Nat)
  | at_index (index : Nat) (data : Nat)
deriving DecidableEq

/-- The `size_t` index argument of an insert call, if it has one. -/
def InsertOp.index : InsertOp → Nat
  | InsertOp.front _ => 0
  | InsertOp.back _ => 0
  | InsertOp.at_index k _ => k

/-- Run one insert call on the list at `ll`. -/
def apply_insert (st : State) (ll : Addr) : InsertOp → Option (Bool × State)
  | InsertOp.front d => linked_list_insert_front st (some ll) d
  | InsertOp.back d => linked_list_insert_end st (some ll) d
  | InsertOp.at_index k d => linked_list_insert st (some ll) k d

/-- Run a sequence of insert calls on the list at `ll`, counting the calls
that returned `true`. -/
def run_inserts (ll : Addr) : State → List InsertOp → Option (Nat × State)
  | st, [] => some (0, st)
  | st, op :: ops =>
    match apply_insert st ll op with
    | none => none
    | some (b, st1) =>
      match run_inserts ll st1 ops with
      | none => none
      | some (n, st2) => some ((if b then 1 else 0) + n, st2)

/-! ## Cursors and sequences of calls -/

/-- The block at `it` is a cursor on the list at `ll`: its current node is the
node at `c`, its recorded index is `k` and its cached value is `v`. -/
def cursor_at (h : Heap) (it ll c : Addr) (k v : Nat) : Prop :=
  read_iter h it = some ⟨some ll, some c, k, v⟩

/-- Call `linked_list_iterate` on the same cursor `n` times in a row; the
results come in call order. -/
def iterate_n (iter : Option Addr) : Nat → State → Option (List Bool × State)
  | 0, st => some ([], st)
  | n + 1, st =>
    match linked_list_iterate st iter with
    | none => none
    | some (b, st1) =>
      match iterate_n iter n st1 with
      | none => none
      | some (bs, st2) => some (b :: bs, st2)

/-- One call of a function of the library, with its arguments. -/
inductive Call where
  | create
  | delete (ll : Option Addr)
  | size (ll : Option Addr)
  | insert_end (ll : Option Addr) (data : Nat)
  | insert_front (ll : Option Addr) (data : Nat)
  | insert (ll : Option Addr) (index : Nat) (data : Nat)
  | find (ll : Option Addr) (data : Nat)
  | remove (ll : Option Addr) (index : Nat)
  | create_iterator (ll : Option Addr) (index : Nat)
  | delete_iterator (iter : Option Addr)
  | iterate (iter : Option Addr)
  | register_malloc (fn : Option MallocFn)
  | register_free (fn : Option FreeFn)

/-- The state after one call of the library (the returned value is dropped). -/
def step (st : State) : Call → Option State
  | Call.create => (linked_list_create st).map Prod.snd
  | Call.delete ll => (linked_list_delete st ll).map Prod.snd
  | Call.size ll => (linked_list_size st ll).map fun _ => st
  | Call.insert_end ll data => (linked_list_insert_end st ll data).map Prod.snd
  | Call.insert_front ll data => (linked_list_insert_front st ll data).map Prod.snd
  | Call.insert ll index data => (linked_list_insert st ll index data).map Prod.snd
  | Call.find ll data => (linked_list_find st ll data).map fun _ => st
  | Call.remove ll index => (linked_list_remove st ll index).map Prod.snd
  | Call.create_iterator ll index => (linked_list_create_iterator st ll index).map Prod.snd
  | Call.delete_iterator iter => some (linked_list_delete_iterator st iter).2
  | Call.iterate iter => (linked_list_iterate st iter).map Prod.snd
  | Call.register_malloc fn => some (linked_list_register_malloc st fn).2
  | Call.register_free fn => some (linked_list_register_free st fn).2

/-- The state after a sequence of calls of the library. -/
def run_calls : State → List Call → Option State
  | st, [] => some st
  | st, c :: cs =>
    match step st c with
    | none => none
    | some st1 => run_calls st1 cs

/-! ## The allocator contract -/

/-- Blocks handed out and not yet released, according to the history of
allocator calls (newest first). -/
def live : List Event → List Addr
  | [] => []
  | Event.malloc _ (some a) :: tr => a :: live tr
  | Event.malloc _ none :: tr => live tr
  | Event.free a :: tr => (live tr).filter fun b => decide (b ≠ a)

/-- A `malloc()`-like routine never hands out a block that is still in use. -/
def well_behaved (f : MallocFn) : Prop :=
  ∀ tr size a, f.run tr size = some a → a ∉ live tr

/-- The heap holds exactly the blocks that the history says are in use. -/
def consistent (st : State) : Prop := keys st.heap = live st.trace

/-! ## Concrete inputs -/

/-- Largest address the allocator has handed out so far. -/
def max_addr : List Event → Nat
  | [] => 0
  | Event.malloc _ (some a) :: tr => max a (max_addr tr)
  | Event.malloc _ none :: tr => max_addr tr
  | Event.free _ :: tr => max_addr tr

/-- A bump allocator: always succeeds, with the address after the largest one
handed out so far. -/
def bump : MallocFn := ⟨fun tr _ => some (max_addr tr + 1)⟩

/-- An allocator that always returns `NULL`. -/
def no_memory : MallocFn := ⟨fun _ _ => none⟩

/-- Both slots registered, nothing allocated yet. -/
def st_init : State :=
  { malloc_fptr := some bump, free_fptr := some 0, heap := [], trace := [] }

/-- Both slots unset, nothing allocated. -/
def st_unset : State :=
  { malloc_fptr := none, free_fptr := none, heap := [], trace := [] }

/-- Both slots registered; the list at address 1 holds `[5, 7]`, in the nodes
at addresses 2 and 3. -/
def st_two : State :=
  { malloc_fptr := some bump, free_fptr := some 0,
    heap := [(3, Obj.nodeObj ⟨7, none⟩), (2, Obj.nodeObj ⟨5, some 3⟩),
             (1, Obj.listObj ⟨some 2⟩)],
    trace := [Event.malloc sizeof_node (some 3), Event.malloc sizeof_node (some 2),
              Event.malloc sizeof_linked_list (some 1)] }

/-- The state `st_two` with a cursor at address 4 on the first node of the
list (index 0, value 5). -/
def st_cursor_first : State :=
  { st_two with
    heap := (4, Obj.iterObj ⟨some 1, some 2, 0, 5⟩) :: st_two.heap,
    trace := Event.malloc sizeof_iterator (some 4) :: st_two.trace }

/-- The state `st_two` with a cursor at address 4 on the last node of the
list (index 1, value 7). -/
def st_cursor_last : State :=
  { st_two with
    heap := (4, Obj.iterObj ⟨some 1, some 3, 1, 7⟩) :: st_two.heap,
    trace := Event.malloc sizeof_iterator (some 4) :: st_two.trace }

/-! ## Heap lemmas -/

theorem read_alloc (h : Heap) (a b : Addr) :
    read (alloc h a) b = if b = a then some Obj.raw else read h b := by
  simp [alloc, read]

theorem read_overwrite (h : Heap) (a b : Addr) (o : Obj) :
    read (overwrite h a o) b = if b = a then (read h a).map (fun _ => o) else read h b := by
  induction h with
  | nil => simp [read, overwrite]
  | cons c h ih =>
    obtain ⟨c1, c2⟩ := c
    by_cases hc : c1 = a
    · subst hc
      by_cases hb : b = c1
      · subst hb; simp [read, overwrite]
      · simp [read, overwrite, hb, ih]
    · by_cases hb : b = a
      · subst hb
        have : ¬ b = c1 := fun e => hc e.symm
        simp [read, overwrite, hc, this, ih]
      · simp [read, overwrite, hc, hb, ih]

theorem read_store {h h1 : Heap} {a : Addr} {o : Obj} (hs : store h a o = some h1)
    (b : Addr) : read h1 b = if b = a then some o else read h b := by
  unfold store at hs
  cases hr : read h a with
  | none => simp [hr] at hs
  | some x =>
    simp [hr] at hs
    subst hs
    rw [read_overwrite]
    by_cases hb : b = a
    · simp [hb, hr]
    · simp [hb]

theorem store_of_live {h : Heap} {a : Addr} {x : Obj} (hr : read h a = some x) (o : Obj) :
    store h a o = some (overwrite h a o) := by
  simp [store, hr]

theorem keys_overwrite (h : Heap) (a : Addr) (o : Obj) : keys (overwrite h a o) = keys h := by
  induction h with
  | nil => rfl
  | cons c h ih =>
    obtain ⟨c1, c2⟩ := c
    simp only [keys, List.map_cons] at ih ⊢
    by_cases hc : c1 = a <;> simp [overwrite, hc, ih]

theorem keys_store {h h1 : Heap} {a : Addr} {o : Obj} (hs : store h a o = some h1) :
    keys h1 = keys h := by
  unfold store at hs
  cases hr : read h a with
  | none => simp [hr] at hs
  | some x =>
    simp [hr] at hs
    subst hs
    exact keys_overwrite h a o

theorem read_release (h : Heap) (a b : Addr) :
    read (release h a) b = if b = a then none else read h b := by
  induction h with
  | nil => simp [release, read]
  | cons c h ih =>
    obtain ⟨c1, c2⟩ := c
    by_cases hc : c1 = a
    · subst hc
      by_cases hb : b = c1
      · subst hb; simpa [release] using ih
      · simp [read, release, hb, ih]
    · by_cases hb : b = a
      · subst hb
        have : ¬ b = c1 := fun e => hc e.symm
        simp [read, release, hc, this, ih]
      · simp [read, release, hc, hb, ih]

theorem read_eq_none_iff (h : Heap) (a : Addr) : read h a = none ↔ a ∉ keys h := by
  induction h with
  | nil => simp [read, keys]
  | cons c h ih =>
    obtain ⟨c1, c2⟩ := c
    by_cases hc : a = c1
    · simp [read, keys, hc]
    · simp only [read, hc, if_false, ih]
      simp [keys, hc]

theorem release_of_not_live {h : Heap} {a : Addr} (hr : read h a = none) : release h a = h := by
  induction h with
  | nil => rfl
  | cons c h ih =>
    obtain ⟨c1, c2⟩ := c
    by_cases hc : a = c1
    · simp [read, hc] at hr
    · have hc2 : ¬ c1 = a := fun e => hc e.symm
      simp only [read, hc, if_false] at hr
      simp [release, hc2, ih hr]

theorem release_alloc {h : Heap} {a : Addr} (hr : read h a = none) :
    release (alloc h a) a = h := by
  simp [alloc, release, release_of_not_live hr]

theorem keys_alloc (h : Heap) (a : Addr) : keys (alloc h a) = a :: keys h := rfl

theorem keys_release (h : Heap) (a : Addr) :
    keys (release h a) = (keys h).filter fun b => decide (b ≠ a) := by
  induction h with
  | nil => rfl
  | cons c h ih =>
    obtain ⟨c1, c2⟩ := c
    simp only [keys, List.map_cons] at ih ⊢
    by_cases hc : c1 = a <;> simp [release, hc, List.filter_cons, ih]

theorem length_keys (h : Heap) : (keys h).length = h.length := by simp [keys]

/-! ## Chains -/

theorem chain_congr {h h1 : Heap} {ns : List (Addr × Nat)} :
    ∀ {p : Option Addr}, chain h p ns → (∀ a ∈ ns.map Prod.fst, read h1 a = read h a) →
      chain h1 p ns := by
  induction ns with
  | nil => intro p hc _; exact hc
  | cons n ns ih =>
    obtain ⟨a, v⟩ := n
    intro p hc hf
    obtain ⟨hp, nx, hr, hc1⟩ := hc
    refine ⟨hp, nx, ?_, ih hc1 fun b hb => hf b (by simp at hb ⊢; exact Or.inr hb)⟩
    have := hf a (by simp)
    simp only [read_node, this] at hr ⊢
    exact hr

theorem chain_det {h : Heap} {ns : List (Addr × Nat)} :
    ∀ {p : Option Addr} {ms : List (Addr × Nat)}, chain h p ns → chain h p ms → ns = ms := by
  induction ns with
  | nil =>
    intro p ms hc hm
    cases ms with
    | nil => rfl
    | cons m ms =>
      obtain ⟨b, w⟩ := m
      simp only [chain] at hc hm
      rw [hc] at hm
      exact absurd hm.1 (by simp)
  | cons n ns ih =>
    obtain ⟨a, v⟩ := n
    intro p ms hc hm
    obtain ⟨hp, nx, hr, hc1⟩ := hc
    cases ms with
    | nil =>
      simp only [chain] at hm
      rw [hm] at hp
      exact absurd hp (by simp)
    | cons m ms =>
      obtain ⟨b, w⟩ := m
      obtain ⟨hp2, nx2, hr2, hc2⟩ := hm
      rw [hp] at hp2
      cases hp2
      rw [hr] at hr2
      cases hr2
      rw [ih hc1 hc2]

theorem chain_mid {h : Heap} {c : Addr} {w : Nat} {post : List (Addr × Nat)}
    (pre : List (Addr × Nat)) :
    ∀ {p : Option Addr}, chain h p (pre ++ (c, w) :: post) →
      ∃ q, read_node h c = some ⟨w, q⟩ ∧ chain h q post := by
  induction pre with
  | nil => intro p hc; obtain ⟨_, nx, hr, hc1⟩ := hc; exact ⟨nx, hr, hc1⟩
  | cons n pre ih =>
    obtain ⟨a, v⟩ := n
    intro p hc
    obtain ⟨_, nx, _, hc1⟩ := hc
    exact ih hc1

theorem chain_suffix {h : Heap} {post : List (Addr × Nat)} (pre : List (Addr × Nat)) :
    ∀ {p : Option Addr}, chain h p (pre ++ post) → ∃ q, chain h q post := by
  induction pre with
  | nil => intro p hc; exact ⟨p, hc⟩
  | cons n pre ih =>
    obtain ⟨a, v⟩ := n
    intro p hc
    obtain ⟨_, nx, _, hc1⟩ := hc
    exact ih hc1

theorem chain_live {h : Heap} {ns : List (Addr × Nat)} :
    ∀ {p : Option Addr}, chain h p ns → ∀ a ∈ ns.map Prod.fst, ∃ n, read h a = some (Obj.nodeObj n) := by
  induction ns with
  | nil => intro p _ a ha; simp at ha
  | cons n ns ih =>
    obtain ⟨b, v⟩ := n
    intro p hc a ha
    obtain ⟨_, nx, hr, hc1⟩ := hc
    simp only [List.map_cons, List.mem_cons] at ha
    rcases ha with rfl | ha
    · unfold read_node at hr
      split at hr
      · rename_i n hn; exact ⟨n, hn⟩
      · cases hr
    · exact ih hc1 a ha

theorem chain_nodup {h : Heap} {ns : List (Addr × Nat)} :
    ∀ {p : Option Addr}, chain h p ns → (ns.map Prod.fst).Nodup := by
  induction ns with
  | nil => intro p _; simp
  | cons n ns ih =>
    obtain ⟨a, v⟩ := n
    intro p hc
    have hc0 := hc
    obtain ⟨hp, nx, hr, hc1⟩ := hc
    simp only [List.map_cons, List.nodup_cons]
    refine ⟨?_, ih hc1⟩
    intro hmem
    obtain ⟨⟨a2, w⟩, hm, hfst⟩ := List.mem_map.1 hmem
    simp only at hfst
    subst hfst
    obtain ⟨pre, post, hsplit⟩ := List.append_of_mem hm
    rw [hsplit] at hc1
    obtain ⟨q, hq⟩ := chain_suffix pre hc1
    have hq2 := hq
    obtain ⟨hqa, _⟩ := hq2
    rw [hqa, ← hp] at hq
    have := chain_det hq hc0
    have hl := congrArg List.length this
    rw [hsplit] at hl
    simp at hl
    omega

theorem chain_length_le {h : Heap} {ns : List (Addr × Nat)} {p : Option Addr}
    (hc : chain h p ns) : ns.length ≤ h.length := by
  have hnd := chain_nodup hc
  have hsub : ns.map Prod.fst ⊆ keys h := by
    intro a ha
    obtain ⟨n, hn⟩ := chain_live hc a ha
    by_contra hk
    rw [← read_eq_none_iff] at hk
    rw [hk] at hn
    cases hn
  have := (List.subperm_of_subset hnd hsub).length_le
  simpa [keys] using this

theorem relink {h h1 : Heap} {c : Addr} {w : Nat} {q1 : Option Addr}
    {post ms : List (Addr × Nat)} (pre : List (Addr × Nat)) :
    ∀ {p : Option Addr}, chain h p (pre ++ (c, w) :: post) →
      (∀ a ∈ pre.map Prod.fst, read h1 a = read h a) →
      read_node h1 c = some ⟨w, q1⟩ → chain h1 q1 ms →
      chain h1 p (pre ++ (c, w) :: ms) := by
  induction pre with
  | nil =>
    intro p hc _ hr hm
    obtain ⟨hp, _⟩ := hc
    exact ⟨hp, q1, hr, hm⟩
  | cons n pre ih =>
    obtain ⟨a, v⟩ := n
    intro p hc hf hr hm
    obtain ⟨hp, nx, hra, hc1⟩ := hc
    refine ⟨hp, nx, ?_, ih hc1 (fun b hb => hf b (by simp at hb ⊢; exact Or.inr hb)) hr hm⟩
    have := hf a (by simp)
    simp only [read_node, this] at hra ⊢
    exact hra

/-! ## Loops on a chain -/

theorem slot_after_append (xs ys : List (Addr × Nat)) :
    ∀ s : Slot, slot_after s (xs ++ ys) = slot_after (slot_after s xs) ys := by
  induction xs with
  | nil => intro s; rfl
  | cons x xs ih => obtain ⟨a, v⟩ := x; intro s; exact ih (Slot.next a)

theorem slot_after_concat (s : Slot) (xs : List (Addr × Nat)) (c : Addr) (w : Nat) :
    slot_after s (xs ++ [(c, w)]) = Slot.next c := by
  rw [slot_after_append]; rfl

theorem load_slot_next {h : Heap} {a : Addr} {v : Nat} {nx : Option Addr}
    (hr : read_node h a = some ⟨v, nx⟩) : load_slot h (Slot.next a) = some nx := by
  simp [load_slot, hr]

theorem walk_slot_chain {h : Heap} {index : Nat} (post : List (Addr × Nat))
    (hidx : index < SIZE_MOD) (pre : List (Addr × Nat)) :
    ∀ (slot : Slot) {p : Option Addr} (fuel i : Nat), load_slot h slot = some p →
      chain h p (pre ++ post) →
      (i + pre.length = index ∨ (post = [] ∧ i + pre.length < index)) →
      pre.length < fuel →
      walk_slot h index fuel slot i = some (slot_after slot pre, i + pre.length) := by
  induction pre with
  | nil =>
    intro slot p fuel i hl hc hi hfuel
    obtain ⟨fuel, rfl⟩ : ∃ f, fuel = f + 1 := ⟨fuel - 1, by simp at hfuel; omega⟩
    cases post with
    | nil =>
      simp only [List.append_nil, chain] at hc
      subst hc
      simp [walk_slot, hl, slot_after]
    | cons n post =>
      obtain ⟨a, v⟩ := n
      obtain ⟨hp, _⟩ := hc
      subst hp
      have : ¬ i < index := by
        rcases hi with hi | ⟨hi, _⟩
        · simp at hi; omega
        · cases hi
      simp [walk_slot, hl, slot_after, this]
  | cons n pre ih =>
    obtain ⟨a, v⟩ := n
    intro slot p fuel i hl hc hi hfuel
    obtain ⟨fuel, rfl⟩ : ∃ f, fuel = f + 1 := ⟨fuel - 1, by simp at hfuel; omega⟩
    obtain ⟨hp, nx, hr, hc1⟩ := hc
    subst hp
    simp only [List.length_cons] at hi hfuel
    have hlt : i < index := by rcases hi with hi | ⟨_, hi⟩ <;> omega
    have hmod : (i + 1) % SIZE_MOD = i + 1 := Nat.mod_eq_of_lt (by omega)
    have hi1 : i + 1 + pre.length = index ∨ (post = [] ∧ i + 1 + pre.length < index) := by
      rcases hi with hi | ⟨hpost, hi⟩
      · exact Or.inl (by omega)
      · exact Or.inr ⟨hpost, by omega⟩
    have := ih (Slot.next a) fuel (i + 1) (load_slot_next hr) hc1 hi1 (by omega)
    simp only [walk_slot, hl, hlt, if_true, hmod, this, slot_after, List.length_cons]
    congr 2
    omega

theorem last_slot_chain {h : Heap} (ns : List (Addr × Nat)) :
    ∀ (slot : Slot) {p : Option Addr} (fuel : Nat), load_slot h slot = some p →
      chain h p ns → ns.length < fuel →
      last_slot h fuel slot = some (slot_after slot ns) := by
  induction ns with
  | nil =>
    intro slot p fuel hl hc hfuel
    obtain ⟨fuel, rfl⟩ : ∃ f, fuel = f + 1 := ⟨fuel - 1, by simp at hfuel; omega⟩
    simp only [chain] at hc
    subst hc
    simp [last_slot, hl, slot_after]
  | cons n ns ih =>
    obtain ⟨a, v⟩ := n
    intro slot p fuel hl hc hfuel
    obtain ⟨fuel, rfl⟩ : ∃ f, fuel = f + 1 := ⟨fuel - 1, by simp at hfuel; omega⟩
    obtain ⟨hp, nx, hr, hc1⟩ := hc
    subst hp
    simp only [List.length_cons] at hfuel
    simp only [last_slot, hl, slot_after]
    exact ih (Slot.next a) fuel (load_slot_next hr) hc1 (by omega)

theorem size_loop_chain {h : Heap} (ns : List (Addr × Nat)) :
    ∀ {p : Option Addr} (fuel i : Nat), chain h p ns → ns.length < fuel → i < SIZE_MOD →
      size_loop h fuel p i = some ((i + ns.length) % SIZE_MOD) := by
  induction ns with
  | nil =>
    intro p fuel i hc hfuel hi
    obtain ⟨fuel, rfl⟩ : ∃ f, fuel = f + 1 := ⟨fuel - 1, by simp at hfuel; omega⟩
    simp only [chain] at hc
    subst hc
    simp [size_loop, Nat.mod_eq_of_lt hi]
  | cons n ns ih =>
    obtain ⟨a, v⟩ := n
    intro p fuel i hc hfuel hi
    obtain ⟨fuel, rfl⟩ : ∃ f, fuel = f + 1 := ⟨fuel - 1, by simp at hfuel; omega⟩
    obtain ⟨hp, nx, hr, hc1⟩ := hc
    subst hp
    simp only [List.length_cons] at hfuel
    have hpos : 0 < SIZE_MOD := by unfold SIZE_MOD; positivity
    simp only [size_loop, hr]
    rw [ih fuel _ hc1 (by omega) (Nat.mod_lt _ hpos)]
    simp only [List.length_cons, Nat.mod_add_mod]
    congr 2
    omega

theorem find_loop_absent {h : Heap} {v : Nat} (ns : List (Addr × Nat)) :
    ∀ {p : Option Addr} (fuel i : Nat), chain h p ns → ns.length < fuel →
      v ∉ ns.map Prod.snd → find_loop h v fuel p i = some SIZE_MAX := by
  induction ns with
  | nil =>
    intro p fuel i hc hfuel _
    obtain ⟨fuel, rfl⟩ : ∃ f, fuel = f + 1 := ⟨fuel - 1, by simp at hfuel; omega⟩
    simp only [chain] at hc
    subst hc
    simp [find_loop]
  | cons n ns ih =>
    obtain ⟨a, w⟩ := n
    intro p fuel i hc hfuel hv
    obtain ⟨fuel, rfl⟩ : ∃ f, fuel = f + 1 := ⟨fuel - 1, by simp at hfuel; omega⟩
    obtain ⟨hp, nx, hr, hc1⟩ := hc
    subst hp
    simp only [List.length_cons] at hfuel
    simp only [List.map_cons, List.mem_cons, not_or] at hv
    have hne : ¬ w = v := fun e => hv.1 e.symm
    simp only [find_loop, hr, hne, if_false]
    exact ih fuel _ hc1 (by omega) hv.2

theorem find_loop_first {h : Heap} {v : Nat} {c : Addr} {post : List (Addr × Nat)}
    (pre : List (Addr × Nat)) :
    ∀ {p : Option Addr} (fuel i : Nat), chain h p (pre ++ (c, v) :: post) →
      pre.length < fuel → v ∉ pre.map Prod.snd → i + pre.length < SIZE_MOD →
      find_loop h v fuel p i = some (i + pre.length) := by
  induction pre with
  | nil =>
    intro p fuel i hc hfuel _ _
    obtain ⟨fuel, rfl⟩ : ∃ f, fuel = f + 1 := ⟨fuel - 1, by simp at hfuel; omega⟩
    obtain ⟨hp, nx, hr, hc1⟩ := hc
    subst hp
    simp [find_loop, hr]
  | cons n pre ih =>
    obtain ⟨a, w⟩ := n
    intro p fuel i hc hfuel hv hi
    obtain ⟨fuel, rfl⟩ : ∃ f, fuel = f + 1 := ⟨fuel - 1, by simp at hfuel; omega⟩
    obtain ⟨hp, nx, hr, hc1⟩ := hc
    subst hp
    simp only [List.length_cons] at hfuel hi
    simp only [List.map_cons, List.mem_cons, not_or] at hv
    have hne : ¬ w = v := fun e => hv.1 e.symm
    have hmod : (i + 1) % SIZE_MOD = i + 1 := Nat.mod_eq_of_lt (by omega)
    simp only [find_loop, hr, hne, if_false, hmod]
    rw [ih fuel (i + 1) hc1 (by omega) hv.2 (by omega)]
    simp only [List.length_cons]
    congr 1
    omega

/-! ## Splicing a node in and out -/

theorem read_list_of_read {h h1 : Heap} {a : Addr} (e : read h1 a = read h a) :
    read_list h1 a = read_list h a := by
  simp only [read_list, e]

theorem read_node_of_read {h h1 : Heap} {a : Addr} (e : read h1 a = read h a) :
    read_node h1 a = read_node h a := by
  simp only [read_node, e]

theorem read_of_read_list {h : Heap} {a : Addr} {L : linked_list}
    (e : read_list h a = some L) : read h a = some (Obj.listObj L) := by
  unfold read_list at e
  split at e
  · rename_i l hl; cases e; exact hl
  · cases e

theorem read_of_read_node {h : Heap} {a : Addr} {n : node}
    (e : read_node h a = some n) : read h a = some (Obj.nodeObj n) := by
  unfold read_node at e
  split at e
  · rename_i l hl; cases e; exact hl
  · cases e

theorem list_concat_cases {α : Type} (l : List α) : l = [] ∨ ∃ L b, l = L ++ [b] := by
  rcases List.eq_nil_or_concat l with e | ⟨L, b, e⟩
  · exact Or.inl e
  · exact Or.inr ⟨L, b, by rw [e, List.concat_eq_append]⟩

theorem splice {h0 : Heap} {ll a : Addr} {p : Option Addr} (v : Nat)
    (pre post : List (Addr × Nat))
    (hl : read_list h0 ll = some ⟨p⟩) (hc : chain h0 p (pre ++ post))
    (ha : read h0 a = some Obj.raw) :
    ∃ q h1 h2, load_slot h0 (slot_after (Slot.head ll) pre) = some q ∧
      (post = [] → q = none) ∧ (pre = [] → q = p) ∧
      store h0 a (Obj.nodeObj ⟨v, q⟩) = some h1 ∧
      store_slot h1 (slot_after (Slot.head ll) pre) (some a) = some h2 ∧
      list_nodes h2 ll (pre ++ (a, v) :: post) ∧ keys h2 = keys h0 := by
  have hll := read_of_read_list hl
  have hlive := chain_live hc
  have hnd := chain_nodup hc
  have hane : ∀ x ∈ (pre ++ post).map Prod.fst, x ≠ a := by
    intro x hx e
    obtain ⟨n, hn⟩ := hlive x hx
    rw [e, ha] at hn
    cases hn
  have hlne : ∀ x ∈ (pre ++ post).map Prod.fst, x ≠ ll := by
    intro x hx e
    obtain ⟨n, hn⟩ := hlive x hx
    rw [e, hll] at hn
    cases hn
  have hal : a ≠ ll := by
    intro e
    rw [e, hll] at ha
    cases ha
  rcases list_concat_cases pre with rfl | ⟨pre1, ⟨c, w⟩, rfl⟩
  · -- the slot is the head field of the header
    simp only [List.nil_append, slot_after] at hc hane hlne ⊢
    obtain ⟨h1, hs1⟩ : ∃ h1, store h0 a (Obj.nodeObj ⟨v, p⟩) = some h1 :=
      ⟨_, store_of_live ha _⟩
    have hr1 := read_store hs1
    have hl1 : read_list h1 ll = some ⟨p⟩ := by
      have e : read h1 ll = read h0 ll := by rw [hr1]; simp [Ne.symm hal]
      rw [read_list_of_read e, hl]
    obtain ⟨h2, hs2⟩ : ∃ h2, store h1 ll (Obj.listObj ⟨some a⟩) = some h2 :=
      ⟨_, store_of_live (read_of_read_list hl1) _⟩
    have hr2 := read_store hs2
    refine ⟨p, h1, h2, by simp [load_slot, hl], ?_, fun _ => rfl, hs1,
      by simp [store_slot, hl1, hs2], ⟨some a, by simp [read_list, hr2], rfl, p, ?_, ?_⟩, ?_⟩
    · intro hpost
      subst hpost
      exact hc
    · simp [read_node, hr2, hr1, hal]
    · refine chain_congr hc fun x hx => ?_
      rw [hr2, hr1]
      simp [hane x hx, hlne x hx]
    · rw [keys_store hs2, keys_store hs1]
  · -- the slot is the next field of the last node stepped over
    simp only [List.append_assoc, List.singleton_append] at hc hane hlne hnd
    obtain ⟨q, hrc, hcq⟩ := chain_mid pre1 hc
    have hca : c ≠ a := hane c (by simp)
    have hcl : c ≠ ll := hlne c (by simp)
    rw [slot_after_concat]
    obtain ⟨h1, hs1⟩ : ∃ h1, store h0 a (Obj.nodeObj ⟨v, q⟩) = some h1 :=
      ⟨_, store_of_live ha _⟩
    have hr1 := read_store hs1
    have hrc1 : read_node h1 c = some ⟨w, q⟩ := by
      have e : read h1 c = read h0 c := by rw [hr1]; simp [hca]
      rw [read_node_of_read e, hrc]
    obtain ⟨h2, hs2⟩ : ∃ h2, store h1 c (Obj.nodeObj ⟨w, some a⟩) = some h2 :=
      ⟨_, store_of_live (read_of_read_node hrc1) _⟩
    have hr2 := read_store hs2
    simp only [List.map_append, List.map_cons, List.nodup_append, List.nodup_cons,
      List.mem_append, List.mem_cons, List.disjoint_cons_right] at hnd hane hlne
    refine ⟨q, h1, h2, load_slot_next hrc, ?_, ?_, hs1, by simp [store_slot, hrc1, hs2],
      ⟨p, ?_, ?_⟩, ?_⟩
    · intro hpost
      subst hpost
      exact hcq
    · intro hpre
      simp at hpre
    · have e : read h2 ll = read h0 ll := by
        rw [hr2, hr1]; simp [Ne.symm hcl, Ne.symm hal]
      rw [read_list_of_read e, hl]
    · have hq2 : chain h2 (some a) ((a, v) :: post) := by
        refine ⟨rfl, q, by simp [read_node, hr2, hr1, Ne.symm hca], ?_⟩
        refine chain_congr hcq fun x hx => ?_
        rw [hr2, hr1]
        have e1 : x ≠ a := hane x (Or.inr (Or.inr hx))
        have e2 : x ≠ c := by
          rintro rfl
          exact hnd.2.1.1 hx
        simp [e1, e2]
      have hpre : ∀ x ∈ pre1.map Prod.fst, read h2 x = read h0 x := by
        intro x hx
        rw [hr2, hr1]
        have e1 : x ≠ a := hane x (Or.inl hx)
        have e2 : x ≠ c := by
          rintro rfl
          exact hnd.2.2.1 hx
        simp [e1, e2]
      have hc2 : read_node h2 c = some ⟨w, some a⟩ := by simp [read_node, hr2]
      have := relink pre1 hc hpre hc2 hq2
      simpa using this
    · rw [keys_store hs2, keys_store hs1]

theorem unsplice {h : Heap} {ll t : Addr} {u : Nat} {p : Option Addr}
    (pre post : List (Addr × Nat))
    (hl : read_list h ll = some ⟨p⟩) (hc : chain h p (pre ++ (t, u) :: post)) :
    ∃ q h1, load_slot h (slot_after (Slot.head ll) pre) = some (some t) ∧
      read_node h t = some ⟨u, q⟩ ∧
      store_slot h (slot_after (Slot.head ll) pre) q = some h1 ∧
      list_nodes (release h1 t) ll (pre ++ post) ∧ keys h1 = keys h := by
  have hll := read_of_read_list hl
  have hlive := chain_live hc
  have hnd := chain_nodup hc
  have hlne : ∀ x ∈ (pre ++ (t, u) :: post).map Prod.fst, x ≠ ll := by
    intro x hx e
    obtain ⟨n, hn⟩ := hlive x hx
    rw [e, hll] at hn
    cases hn
  obtain ⟨q, hrt, hcq⟩ := chain_mid pre hc
  have htl : t ≠ ll := hlne t (by simp)
  rcases list_concat_cases pre with rfl | ⟨pre1, ⟨c, w⟩, rfl⟩
  · simp only [List.nil_append, slot_after] at hc hlne hnd ⊢
    obtain ⟨hp, _⟩ := hc
    subst hp
    obtain ⟨h1, hs1⟩ : ∃ h1, store h ll (Obj.listObj ⟨q⟩) = some h1 :=
      ⟨_, store_of_live hll _⟩
    have hr1 := read_store hs1
    simp only [List.map_cons, List.nodup_cons, List.mem_cons] at hnd hlne
    refine ⟨q, h1, by simp [load_slot, hl], hrt, by simp [store_slot, hl, hs1],
      ⟨q, ?_, ?_⟩, keys_store hs1⟩
    · simp [read_list, read_release, hr1, Ne.symm htl]
    · refine chain_congr hcq fun x hx => ?_
      rw [read_release, hr1]
      have e1 : x ≠ t := by
        rintro rfl
        exact hnd.1 hx
      have e2 : x ≠ ll := hlne x (Or.inr hx)
      simp [e1, e2]
  · simp only [List.append_assoc, List.singleton_append] at hc hlne hnd
    obtain ⟨q0, hrc, hc0⟩ := chain_mid pre1 hc
    obtain ⟨hq0, _⟩ := hc0
    subst hq0
    rw [slot_after_concat]
    obtain ⟨h1, hs1⟩ : ∃ h1, store h c (Obj.nodeObj ⟨w, q⟩) = some h1 :=
      ⟨_, store_of_live (read_of_read_node hrc) _⟩
    have hr1 := read_store hs1
    simp only [List.map_append, List.map_cons, List.nodup_append, List.nodup_cons,
      List.mem_append, List.mem_cons, List.disjoint_cons_right] at hnd hlne
    have hct : c ≠ t := by
      rintro rfl
      exact hnd.2.1.1 (Or.inl rfl)
    have hcl : c ≠ ll := hlne c (Or.inr (Or.inl rfl))
    refine ⟨q, h1, load_slot_next hrc, hrt, by simp [store_slot, hrc, hs1],
      ⟨p, ?_, ?_⟩, keys_store hs1⟩
    · have e : read (release h1 t) ll = read h ll := by
        rw [read_release, hr1]; simp [Ne.symm htl, Ne.symm hcl]
      rw [read_list_of_read e, hl]
    · have hq2 : chain (release h1 t) q post := by
        refine chain_congr hcq fun x hx => ?_
        rw [read_release, hr1]
        have e1 : x ≠ t := by
          rintro rfl
          exact hnd.2.1.2.1 hx
        have e2 : x ≠ c := by
          rintro rfl
          exact hnd.2.1.1 (Or.inr hx)
        simp [e1, e2]
      have hpre : ∀ x ∈ pre1.map Prod.fst, read (release h1 t) x = read h x := by
        intro x hx
        rw [read_release, hr1]
        have e1 : x ≠ t := by
          rintro rfl
          exact hnd.2.2.2.1 hx
        have e2 : x ≠ c := by
          rintro rfl
          exact hnd.2.2.1 hx
        simp [e1, e2]
      have hc2 : read_node (release h1 t) c = some ⟨w, q⟩ := by
        simp [read_node, read_release, hr1, hct]
      have := relink pre1 hc hpre hc2 hq2
      simpa using this

/-! ## The library functions on a well-formed list -/

theorem load_slot_head {h : Heap} {ll : Addr} {p : Option Addr}
    (hl : read_list h ll = some ⟨p⟩) : load_slot h (Slot.head ll) = some p := by
  simp [load_slot, hl]

theorem list_nodes_alloc {h : Heap} {ll a : Addr} {ns : List (Addr × Nat)}
    (hn : list_nodes h ll ns) (hf : read h a = none) : list_nodes (alloc h a) ll ns := by
  obtain ⟨p, hl, hc⟩ := hn
  have hll := read_of_read_list hl
  refine ⟨p, ?_, chain_congr hc fun x hx => ?_⟩
  · have e : read (alloc h a) ll = read h ll := by
      rw [read_alloc]
      have : ll ≠ a := by rintro rfl; rw [hf] at hll; cases hll
      simp [this]
    rw [read_list_of_read e, hl]
  · obtain ⟨n, hn⟩ := chain_live hc x hx
    rw [read_alloc]
    have : x ≠ a := by rintro rfl; rw [hf] at hn; cases hn
    simp [this]

theorem list_nodes_length_le {h : Heap} {ll : Addr} {ns : List (Addr × Nat)}
    (hn : list_nodes h ll ns) : ns.length ≤ h.length := by
  obtain ⟨p, _, hc⟩ := hn
  exact chain_length_le hc

theorem list_nodes_det {h : Heap} {ll : Addr} {ns ms : List (Addr × Nat)}
    (hn : list_nodes h ll ns) (hm : list_nodes h ll ms) : ns = ms := by
  obtain ⟨p, hl, hc⟩ := hn
  obtain ⟨p2, hl2, hc2⟩ := hm
  rw [hl] at hl2
  cases hl2
  exact chain_det hc hc2

theorem insert_ok {st : State} {ll a : Addr} {f : MallocFn} {fr : FreeFn} (v : Nat)
    (pre post : List (Addr × Nat)) (hn : list_nodes st.heap ll (pre ++ post))
    (hm : st.malloc_fptr = some f) (hf : st.free_fptr = some fr)
    (ha : f.run st.trace sizeof_node = some a) (hfresh : read st.heap a = none)
    (hk : pre.length < SIZE_MOD) :
    ∃ h2, linked_list_insert st (some ll) pre.length v
        = some (true, { st with heap := h2,
                                trace := Event.malloc sizeof_node (some a) :: st.trace }) ∧
      list_nodes h2 ll (pre ++ (a, v) :: post) ∧ keys h2 = a :: keys st.heap := by
  obtain ⟨p, hl, hc⟩ := list_nodes_alloc hn hfresh
  have hraw : read (alloc st.heap a) a = some Obj.raw := by simp [read_alloc]
  have hw := walk_slot_chain post hk pre (Slot.head ll) (pre.length + 1) 0
    (load_slot_head hl) hc (Or.inl (by simp)) (by omega)
  obtain ⟨q, h1, h2, hq, _, _, hs1, hs2, hres, hkeys⟩ := splice v pre post hl hc hraw
  refine ⟨h2, ?_, hres, by rw [hkeys, keys_alloc]⟩
  simp [linked_list_insert, hm, hf, call_malloc, ha, hw, hq, hs1, hs2]

theorem insert_out_of_range {st : State} {ll a : Addr} {f : MallocFn} {fr : FreeFn}
    (v index : Nat) (ns : List (Addr × Nat)) (hn : list_nodes st.heap ll ns)
    (hm : st.malloc_fptr = some f) (hf : st.free_fptr = some fr)
    (ha : f.run st.trace sizeof_node = some a) (hfresh : read st.heap a = none)
    (hk : index < SIZE_MOD) (hlt : ns.length < index) :
    linked_list_insert st (some ll) index v
      = some (false,
          { st with trace := Event.free a :: Event.malloc sizeof_node (some a) :: st.trace }) := by
  obtain ⟨p, hl, hc⟩ := list_nodes_alloc hn hfresh
  have hw := walk_slot_chain [] hk ns (Slot.head ll) (index + 1) 0
    (load_slot_head hl) (by simpa using hc) (Or.inr ⟨rfl, by omega⟩) (by omega)
  have hne : ¬ ns.length = index := by omega
  simp [linked_list_insert, hm, hf, call_malloc, ha, hw, hne, call_free, release_alloc hfresh]

theorem insert_alloc_fail {st : State} {f : MallocFn} {fr : FreeFn}
    (ll : Addr) (v index : Nat)
    (hm : st.malloc_fptr = some f) (hf : st.free_fptr = some fr)
    (ha : f.run st.trace sizeof_node = none) :
    linked_list_insert st (some ll) index v
      = some (false, { st with trace := Event.malloc sizeof_node none :: st.trace }) := by
  simp [linked_list_insert, hm, hf, call_malloc, ha]

theorem insert_front_ok {st : State} {ll a : Addr} {f : MallocFn} (v : Nat)
    (ns : List (Addr × Nat)) (hn : list_nodes st.heap ll ns)
    (hm : st.malloc_fptr = some f)
    (ha : f.run st.trace sizeof_node = some a) (hfresh : read st.heap a = none) :
    ∃ h2, linked_list_insert_front st (some ll) v
        = some (true, { st with heap := h2,
                                trace := Event.malloc sizeof_node (some a) :: st.trace }) ∧
      list_nodes h2 ll ((a, v) :: ns) ∧ keys h2 = a :: keys st.heap := by
  obtain ⟨p, hl, hc⟩ := list_nodes_alloc hn hfresh
  have hraw : read (alloc st.heap a) a = some Obj.raw := by simp [read_alloc]
  obtain ⟨q, h1, h2, _, _, hq, hs1, hs2, hres, hkeys⟩ :=
    splice v [] ns hl (by simpa using hc) hraw
  have hq := hq rfl
  subst hq
  refine ⟨h2, ?_, by simpa using hres, by rw [hkeys, keys_alloc]⟩
  simp only [slot_after] at hs2
  simp [linked_list_insert_front, hm, call_malloc, ha, hl, hs1, hs2]

theorem insert_front_alloc_fail {st : State} {f : MallocFn} (ll : Addr) (v : Nat)
    (hm : st.malloc_fptr = some f) (ha : f.run st.trace sizeof_node = none) :
    linked_list_insert_front st (some ll) v
      = some (false, { st with trace := Event.malloc sizeof_node none :: st.trace }) := by
  simp [linked_list_insert_front, hm, call_malloc, ha]

theorem insert_end_ok {st : State} {ll a : Addr} {f : MallocFn} (v : Nat)
    (ns : List (Addr × Nat)) (hn : list_nodes st.heap ll ns)
    (hm : st.malloc_fptr = some f)
    (ha : f.run st.trace sizeof_node = some a) (hfresh : read st.heap a = none) :
    ∃ h2, linked_list_insert_end st (some ll) v
        = some (true, { st with heap := h2,
                                trace := Event.malloc sizeof_node (some a) :: st.trace }) ∧
      list_nodes h2 ll (ns ++ [(a, v)]) ∧ keys h2 = a :: keys st.heap := by
  have hlen := list_nodes_length_le hn
  obtain ⟨p0, hl0, hc0⟩ := hn
  have hlast := last_slot_chain ns (Slot.head ll) (st.heap.length + 1)
    (load_slot_head hl0) hc0 (by omega)
  obtain ⟨p, hl, hc⟩ := list_nodes_alloc ⟨p0, hl0, hc0⟩ hfresh
  have hraw : read (alloc st.heap a) a = some Obj.raw := by simp [read_alloc]
  obtain ⟨q, h1, h2, _, hq, _, hs1, hs2, hres, hkeys⟩ :=
    splice v ns [] hl (by simpa using hc) hraw
  have hq := hq rfl
  subst hq
  refine ⟨h2, ?_, hres, by rw [hkeys, keys_alloc]⟩
  simp [linked_list_insert_end, hm, hlast, call_malloc, ha, hs1, hs2]

theorem insert_end_alloc_fail {st : State} {ll : Addr} {f : MallocFn} (v : Nat)
    (ns : List (Addr × Nat)) (hn : list_nodes st.heap ll ns)
    (hm : st.malloc_fptr = some f) (ha : f.run st.trace sizeof_node = none) :
    linked_list_insert_end st (some ll) v
      = some (false, { st with trace := Event.malloc sizeof_node none :: st.trace }) := by
  have hlen := list_nodes_length_le hn
  obtain ⟨p0, hl0, hc0⟩ := hn
  have hlast := last_slot_chain ns (Slot.head ll) (st.heap.length + 1)
    (load_slot_head hl0) hc0 (by omega)
  simp [linked_list_insert_end, hm, hlast, call_malloc, ha]

theorem remove_ok {st : State} {ll t : Addr} {fr : FreeFn} {u : Nat}
    (pre post : List (Addr × Nat)) (hn : list_nodes st.heap ll (pre ++ (t, u) :: post))
    (hf : st.free_fptr = some fr) (hk : pre.length < SIZE_MOD) :
    ∃ h2, linked_list_remove st (some ll) pre.length
        = some (true, { st with heap := h2, trace := Event.free t :: st.trace }) ∧
      list_nodes h2 ll (pre ++ post) ∧
      keys h2 = (keys st.heap).filter fun b => decide (b ≠ t) := by
  obtain ⟨p, hl, hc⟩ := hn
  have hw := walk_slot_chain ((t, u) :: post) hk pre (Slot.head ll) (pre.length + 1) 0
    (load_slot_head hl) hc (Or.inl (by simp)) (by omega)
  obtain ⟨q, h1, hq, hrt, hs1, hres, hkeys⟩ := unsplice pre post hl hc
  refine ⟨release h1 t, ?_, hres, by rw [keys_release, hkeys]⟩
  simp [linked_list_remove, hf, hw, hq, hrt, hs1, call_free]

theorem remove_out_of_range {st : State} {ll : Addr} {fr : FreeFn} (index : Nat)
    (ns : List (Addr × Nat)) (hn : list_nodes st.heap ll ns)
    (hf : st.free_fptr = some fr) (hk : index < SIZE_MOD) (hle : ns.length ≤ index) :
    linked_list_remove st (some ll) index = some (false, st) := by
  obtain ⟨p, hl, hc⟩ := hn
  rcases Nat.lt_or_ge ns.length index with hlt | hge
  · have hw := walk_slot_chain [] hk ns (Slot.head ll) (index + 1) 0
      (load_slot_head hl) (by simpa using hc) (Or.inr ⟨rfl, by omega⟩) (by omega)
    have hne : ¬ ns.length = index := by omega
    simp [linked_list_remove, hf, hw, hne]
  · have he : ns.length = index := by omega
    have hw := walk_slot_chain [] hk ns (Slot.head ll) (index + 1) 0
      (load_slot_head hl) (by simpa using hc) (Or.inl (by omega)) (by omega)
    obtain ⟨q, hq, hcq⟩ : ∃ q, load_slot st.heap (slot_after (Slot.head ll) ns) = some q
        ∧ chain st.heap q [] := by
      rcases list_concat_cases ns with rfl | ⟨pre1, ⟨c, w⟩, rfl⟩
      · exact ⟨p, by simp [slot_after, load_slot, hl], hc⟩
      · obtain ⟨q, hrc, hcq⟩ := chain_mid pre1 hc
        exact ⟨q, by rw [slot_after_concat]; exact load_slot_next hrc, hcq⟩
    simp only [chain] at hcq
    subst hcq
    simp [linked_list_remove, hf, hw, he, hq]

theorem size_of_nodes {st : State} {ll : Addr} {ns : List (Addr × Nat)}
    (hn : list_nodes st.heap ll ns) :
    linked_list_size st (some ll) = some (ns.length % SIZE_MOD) := by
  have hlen := list_nodes_length_le hn
  obtain ⟨p, hl, hc⟩ := hn
  have := size_loop_chain ns (st.heap.length + 1) 0 hc (by omega)
    (by unfold SIZE_MOD; positivity)
  simp [linked_list_size, hl, this]

theorem find_absent {st : State} {ll : Addr} {ns : List (Addr × Nat)} {v : Nat}
    (hn : list_nodes st.heap ll ns) (hv : v ∉ ns.map Prod.snd) :
    linked_list_find st (some ll) v = some SIZE_MAX := by
  have hlen := list_nodes_length_le hn
  obtain ⟨p, hl, hc⟩ := hn
  have := find_loop_absent ns (st.heap.length + 1) 0 hc (by omega) hv
  simp [linked_list_find, hl, this]

theorem find_first {st : State} {ll c : Addr} {v : Nat} (pre post : List (Addr × Nat))
    (hn : list_nodes st.heap ll (pre ++ (c, v) :: post)) (hv : v ∉ pre.map Prod.snd)
    (hk : pre.length < SIZE_MOD) :
    linked_list_find st (some ll) v = some pre.length := by
  have hlen := list_nodes_length_le hn
  obtain ⟨p, hl, hc⟩ := hn
  have := find_loop_first pre (st.heap.length + 1) 0 hc
    (by simp at hlen; omega) hv (by omega)
  simp [linked_list_find, hl, this]

theorem list_holds_st_two : list_holds st_two.heap 1 [5, 7] :=
  ⟨[(2, 5), (3, 7)], ⟨some 2, rfl, rfl, some 3, rfl, rfl, none, rfl, rfl⟩, rfl⟩

theorem size_mod_pos : 0 < SIZE_MOD := by unfold SIZE_MOD; positivity

/-- C1: with both allocator slots registered and the node allocation handing
out a fresh block, `linked_list_insert(list, k, v)` on a list holding `l`
returns `true` exactly when `k ≤ length l`, and then the list holds
`take k l ++ [v] ++ drop k l`. -/
theorem insert_succeeds_iff_index_le_length (st : State) (ll a : Addr) (f : MallocFn)
    (fr : FreeFn) (l : List Nat) (k v : Nat)
    (hl : list_holds st.heap ll l)
    (hm : st.malloc_fptr = some f) (hf : st.free_fptr = some fr)
    (ha : f.run st.trace sizeof_node = some a) (hfresh : read st.heap a = none)
    (hk : k < SIZE_MOD) :
    ∃ b st1, linked_list_insert st (some ll) k v = some (b, st1) ∧
      (b = true ↔ k ≤ l.length) ∧
      (b = true → list_holds st1.heap ll (l.take k ++ v :: l.drop k)) := by
  obtain ⟨ns, hn, rfl⟩ := hl
  rcases Nat.lt_or_ge ns.length k with hlt | hle
  · refine ⟨false, _, insert_out_of_range v k ns hn hm hf ha hfresh hk hlt, ?_, by simp⟩
    simp only [List.length_map]
    constructor
    · intro h; cases h
    · intro h; omega
  · have hsplit : ns.take k ++ ns.drop k = ns := List.take_append_drop k ns
    have hlen : (ns.take k).length = k := by simp [hle]
    rw [← hsplit] at hn
    obtain ⟨h2, hres, hnodes, _⟩ := insert_ok v (ns.take k) (ns.drop k) hn hm hf ha hfresh
      (by rw [hlen]; exact hk)
    rw [hlen] at hres
    refine ⟨true, _, hres, by simpa using hle, fun _ => ⟨_, hnodes, ?_⟩⟩
    simp [List.map_take, List.map_drop]

/-- C1, at a concrete input: inserting 9 at index 1 into `[5, 7]`. -/
theorem insert_succeeds_iff_index_le_length_witness :
    ∃ b st1, linked_list_insert st_two (some 1) 1 9 = some (b, st1) ∧
      (b = true ↔ 1 ≤ [5, 7].length) ∧
      (b = true → list_holds st1.heap 1 (([5, 7] : List Nat).take 1 ++ 9 :: ([5, 7] : List Nat).drop 1)) :=
  insert_succeeds_iff_index_le_length st_two 1 4 bump 0 [5, 7] 1 9 list_holds_st_two rfl rfl rfl rfl
    (by decide)

/-- C2: with the release slot registered, `linked_list_remove(list, k)` on a
list holding `l` returns `true` exactly when `k < length l`, and then the list
holds `l` with the element at position `k` erased. -/
theorem remove_succeeds_iff_index_lt_length (st : State) (ll : Addr) (fr : FreeFn)
    (l : List Nat) (k : Nat)
    (hl : list_holds st.heap ll l) (hf : st.free_fptr = some fr) (hk : k < SIZE_MOD) :
    ∃ b st1, linked_list_remove st (some ll) k = some (b, st1) ∧
      (b = true ↔ k < l.length) ∧
      (b = true → list_holds st1.heap ll (l.eraseIdx k)) := by
  obtain ⟨ns, hn, rfl⟩ := hl
  rcases Nat.lt_or_ge k ns.length with hlt | hle
  · have hsplit : ns.take k ++ ns[k] :: ns.drop (k + 1) = ns := by
      rw [← List.drop_eq_getElem_cons hlt, List.take_append_drop]
    have hlen : (ns.take k).length = k := by simp [Nat.le_of_lt hlt]
    rw [← hsplit] at hn
    obtain ⟨h2, hres, hnodes, _⟩ := remove_ok (ns.take k) (ns.drop (k + 1)) hn hf
      (by rw [hlen]; exact hk)
    rw [hlen] at hres
    refine ⟨true, _, hres, by simpa using hlt, fun _ => ⟨_, hnodes, ?_⟩⟩
    simp [List.eraseIdx_eq_take_drop_succ, List.map_take, List.map_drop]
  · refine ⟨false, st, remove_out_of_range k ns hn hf hk hle, ?_, by simp⟩
    simp only [List.length_map]
    constructor
    · intro h; cases h
    · intro h; omega

/-- C2, at a concrete input: removing index 0 of `[5, 7]`. -/
theorem remove_succeeds_iff_index_lt_length_witness :
    ∃ b st1, linked_list_remove st_two (some 1) 0 = some (b, st1) ∧
      (b = true ↔ 0 < [5, 7].length) ∧
      (b = true → list_holds st1.heap 1 (([5, 7] : List Nat).eraseIdx 0)) :=
  remove_succeeds_iff_index_lt_length st_two 1 0 [5, 7] 0 list_holds_st_two rfl (by decide)

theorem first_split (v : Nat) (ns : List (Addr × Nat)) (hv : v ∈ ns.map Prod.snd) :
    ∃ pre c post, ns = pre ++ (c, v) :: post ∧ v ∉ pre.map Prod.snd := by
  induction ns with
  | nil => simp at hv
  | cons n ns ih =>
    obtain ⟨a, w⟩ := n
    by_cases hw : w = v
    · subst hw
      exact ⟨[], a, ns, rfl, by simp⟩
    · simp only [List.map_cons, List.mem_cons] at hv
      rcases hv with hv | hv
      · exact absurd hv.symm hw
      · obtain ⟨pre, c, post, hsplit, hpre⟩ := ih hv
        refine ⟨(a, w) :: pre, c, post, by rw [hsplit]; rfl, ?_⟩
        simp only [List.map_cons, List.mem_cons, not_or]
        exact ⟨fun e => hw e.symm, hpre⟩

/-- C3: on a list holding `l` (shorter than `2 ^ 64`), `linked_list_find(list, v)`
returns the least index `i` with `l[i] = v` when `v` occurs in `l`, and
`SIZE_MAX` when it does not.  The function only reads the state. -/
theorem find_returns_least_index (st : State) (ll : Addr) (l : List Nat) (v : Nat)
    (hl : list_holds st.heap ll l) (hlen : l.length < SIZE_MOD) :
    (v ∈ l → ∃ i, linked_list_find st (some ll) v = some i ∧ i < l.length ∧
        l[i]? = some v ∧ ∀ j, j < i → l[j]? ≠ some v) ∧
    (v ∉ l → linked_list_find st (some ll) v = some SIZE_MAX) := by
  obtain ⟨ns, hn, rfl⟩ := hl
  refine ⟨fun hv => ?_, fun hv => find_absent hn hv⟩
  obtain ⟨pre, c, post, rfl, hpre⟩ := first_split v ns hv
  simp only [List.map_append, List.map_cons, List.length_append, List.length_map,
    List.length_cons] at hlen ⊢
  refine ⟨pre.length, find_first pre post hn hpre (by omega), by omega, ?_, ?_⟩
  · rw [List.getElem?_append_right (by simp)]
    simp
  · intro j hj e
    rw [List.getElem?_append_left (by simpa using hj)] at e
    exact hpre (List.getElem?_mem e)

/-- C3, at a concrete input: finding 7 in `[5, 7]`. -/
theorem find_returns_least_index_witness :
    (7 ∈ ([5, 7] : List Nat) → ∃ i, linked_list_find st_two (some 1) 7 = some i ∧
        i < ([5, 7] : List Nat).length ∧
        ([5, 7] : List Nat)[i]? = some 7 ∧ ∀ j, j < i → ([5, 7] : List Nat)[j]? ≠ some 7) ∧
    (7 ∉ ([5, 7] : List Nat) → linked_list_find st_two (some 1) 7 = some SIZE_MAX) :=
  find_returns_least_index st_two 1 [5, 7] 7 list_holds_st_two (by decide)

/-! ## Inserts as steps of a run -/

theorem fresh_of_consistent {st : State} {f : MallocFn} {a size : Nat}
    (hc : consistent st) (hwb : well_behaved f) (ha : f.run st.trace size = some a) :
    read st.heap a = none := by
  rw [read_eq_none_iff, hc]
  exact hwb _ _ _ ha

theorem consistent_malloc_none (st : State) (size : Nat) (hc : consistent st) :
    consistent { st with trace := Event.malloc size none :: st.trace } := by
  simpa [consistent, live] using hc

theorem consistent_malloc_some (st : State) {h2 : Heap} {a : Addr} (size : Nat)
    (hk : keys h2 = a :: keys st.heap) (hc : consistent st) :
    consistent { st with heap := h2, trace := Event.malloc size (some a) :: st.trace } := by
  unfold consistent at hc ⊢
  simp [live, hk, hc]

theorem filter_ne_of_not_mem {a : Addr} {l : List Addr} (h : a ∉ l) :
    (l.filter fun b => decide (b ≠ a)) = l := by
  rw [List.filter_eq_self]
  intro b hb
  simp only [decide_eq_true_eq]
  rintro rfl
  exact h hb

theorem consistent_malloc_free (st : State) {a : Addr} (size : Nat)
    (hf : read st.heap a = none) (hc : consistent st) :
    consistent { st with
      trace := Event.free a :: Event.malloc size (some a) :: st.trace } := by
  unfold consistent at hc ⊢
  rw [read_eq_none_iff, hc] at hf
  simp only [live, List.filter_cons, ne_eq, not_true_eq_false, decide_False]
  simp only [Bool.false_eq_true, if_false]
  rw [hc]
  exact (filter_ne_of_not_mem hf).symm

theorem apply_insert_total {st : State} {ll : Addr} {ns : List (Addr × Nat)} (op : InsertOp)
    (hn : list_nodes st.heap ll ns) (hidx : op.index < SIZE_MOD)
    (hfresh : ∀ f a, st.malloc_fptr = some f → f.run st.trace sizeof_node = some a →
      read st.heap a = none) :
    ∃ b st1 ns1, apply_insert st ll op = some (b, st1) ∧ list_nodes st1.heap ll ns1 ∧
      st1.malloc_fptr = st.malloc_fptr ∧
      (b = false → st1.heap = st.heap ∧ ns1 = ns) ∧
      (b = true → ns1.length = ns.length + 1) ∧
      (consistent st → consistent st1) := by
  rcases Option.eq_none_or_eq_some st.malloc_fptr with hm | ⟨f, hm⟩
  · refine ⟨false, st, ns, ?_, hn, rfl, fun _ => ⟨rfl, rfl⟩, by simp, id⟩
    cases op <;> simp [apply_insert, linked_list_insert_front, linked_list_insert_end,
      linked_list_insert, hm]
  rcases Option.eq_none_or_eq_some (f.run st.trace sizeof_node) with ha | ⟨a, ha⟩
  · cases op with
    | front d =>
      exact ⟨false, _, ns, insert_front_alloc_fail ll d hm ha, hn, rfl, fun _ => ⟨rfl, rfl⟩,
        by simp, consistent_malloc_none st _⟩
    | back d =>
      exact ⟨false, _, ns, insert_end_alloc_fail d ns hn hm ha, hn, rfl, fun _ => ⟨rfl, rfl⟩,
        by simp, consistent_malloc_none st _⟩
    | at_index k d =>
      rcases Option.eq_none_or_eq_some st.free_fptr with hf | ⟨fr, hf⟩
      · exact ⟨false, st, ns, by simp [apply_insert, linked_list_insert, hf], hn, rfl,
          fun _ => ⟨rfl, rfl⟩, by simp, id⟩
      · exact ⟨false, _, ns, insert_alloc_fail ll d k hm hf ha, hn, rfl, fun _ => ⟨rfl, rfl⟩,
          by simp, consistent_malloc_none st _⟩
  have hfr := hfresh f a hm ha
  cases op with
  | front d =>
    obtain ⟨h2, hres, hnodes, hkeys⟩ := insert_front_ok d ns hn hm ha hfr
    exact ⟨true, _, _, hres, hnodes, rfl, by simp, fun _ => by simp,
      consistent_malloc_some st _ hkeys⟩
  | back d =>
    obtain ⟨h2, hres, hnodes, hkeys⟩ := insert_end_ok d ns hn hm ha hfr
    exact ⟨true, _, _, hres, hnodes, rfl, by simp, fun _ => by simp,
      consistent_malloc_some st _ hkeys⟩
  | at_index k d =>
    simp only [InsertOp.index] at hidx
    rcases Option.eq_none_or_eq_some st.free_fptr with hf | ⟨fr, hf⟩
    · exact ⟨false, st, ns, by simp [apply_insert, linked_list_insert, hf], hn, rfl,
        fun _ => ⟨rfl, rfl⟩, by simp, id⟩
    rcases Nat.lt_or_ge ns.length k with hlt | hle
    · exact ⟨false, _, ns, insert_out_of_range d k ns hn hm hf ha hfr hidx hlt, hn, rfl,
        fun _ => ⟨rfl, rfl⟩, by simp, consistent_malloc_free st _ hfr⟩
    · have hsplit : ns.take k ++ ns.drop k = ns := List.take_append_drop k ns
      have hlen : (ns.take k).length = k := by simp [hle]
      have hn2 := hn
      rw [← hsplit] at hn2
      obtain ⟨h2, hres, hnodes, hkeys⟩ := insert_ok d (ns.take k) (ns.drop k) hn2 hm hf ha hfr
        (by rw [hlen]; exact hidx)
      rw [hlen] at hres
      refine ⟨true, _, _, hres, hnodes, rfl, by simp, fun _ => ?_,
        consistent_malloc_some st _ hkeys⟩
      have := congrArg List.length hsplit
      simp only [List.length_append] at this
      simp only [List.length_append, List.length_cons]
      omega

theorem create_ok {st0 st1 : State} {ll : Addr}
    (hcreate : linked_list_create st0 = some (some ll, st1)) :
    list_nodes st1.heap ll [] ∧ st1.malloc_fptr = st0.malloc_fptr ∧
      st1.free_fptr = st0.free_fptr ∧ (consistent st0 → consistent st1) := by
  rcases Option.eq_none_or_eq_some st0.malloc_fptr with hm | ⟨f, hm⟩
  · simp [linked_list_create, hm] at hcreate
  rcases Option.eq_none_or_eq_some (f.run st0.trace sizeof_linked_list) with ha | ⟨a, ha⟩
  · simp [linked_list_create, hm, call_malloc, ha] at hcreate
  have hraw : read (alloc st0.heap a) a = some Obj.raw := by simp [read_alloc]
  have hs := store_of_live hraw (Obj.listObj ⟨none⟩)
  have e : linked_list_create st0 = some (some a,
      { st0 with heap := overwrite (alloc st0.heap a) a (Obj.listObj ⟨none⟩),
                 trace := Event.malloc sizeof_linked_list (some a) :: st0.trace }) := by
    simp [linked_list_create, hm, call_malloc, ha, hs]
  rw [e] at hcreate
  obtain ⟨hll, rfl⟩ := Prod.mk.inj (Option.some.inj hcreate)
  cases hll
  have hr := read_store hs
  refine ⟨⟨none, by simp [read_list, hr], rfl⟩, rfl, rfl, ?_⟩
  exact consistent_malloc_some st0 _ (by rw [keys_store hs, keys_alloc])

theorem run_inserts_size {f : MallocFn} {ll : Addr} (hwb : well_behaved f)
    (ops : List InsertOp) :
    ∀ (st : State) (ns : List (Addr × Nat)), list_nodes st.heap ll ns →
      st.malloc_fptr = some f → consistent st → (∀ op ∈ ops, op.index < SIZE_MOD) →
      ∃ n st2 ns2, run_inserts ll st ops = some (n, st2) ∧ list_nodes st2.heap ll ns2 ∧
        ns2.length = ns.length + n ∧ n ≤ ops.length := by
  induction ops with
  | nil => intro st ns hn _ _ _; exact ⟨0, st, ns, rfl, hn, rfl, Nat.le_refl _⟩
  | cons op ops ih =>
    intro st ns hn hm hc hidx
    have hfresh : ∀ g a, st.malloc_fptr = some g → g.run st.trace sizeof_node = some a →
        read st.heap a = none := by
      intro g a hg ha
      rw [hm] at hg
      cases hg
      exact fresh_of_consistent hc hwb ha
    obtain ⟨b, st1, ns1, hstep, hn1, hm1, hfalse, htrue, hc1⟩ :=
      apply_insert_total op hn (hidx op (by simp)) hfresh
    obtain ⟨n, st2, ns2, hrun, hn2, hlen, hle⟩ :=
      ih st1 ns1 hn1 (hm1.trans hm) (hc1 hc) fun o ho => hidx o (by simp [ho])
    refine ⟨(if b then 1 else 0) + n, st2, ns2, by simp [run_inserts, hstep, hrun], hn2, ?_, ?_⟩
    · cases b with
      | false => rw [hlen, (hfalse rfl).2]; simp
      | true => rw [hlen, htrue rfl]; simp; omega
    · cases b <;> simp <;> omega

/-- C4: on a list fresh from `linked_list_create`, `linked_list_size` returns 0,
and after any sequence of calls of `linked_list_insert_front`,
`linked_list_insert_end` and `linked_list_insert` (any indices and values, each
call succeeding or failing) it returns the number of calls that succeeded. -/
theorem size_counts_successful_inserts (st0 st1 : State) (f : MallocFn) (ll : Addr)
    (ops : List InsertOp)
    (hm : st0.malloc_fptr = some f) (hwb : well_behaved f) (hc : consistent st0)
    (hcreate : linked_list_create st0 = some (some ll, st1))
    (hidx : ∀ op ∈ ops, op.index < SIZE_MOD) (hlen : ops.length < SIZE_MOD) :
    linked_list_size st1 (some ll) = some 0 ∧
    ∃ n st2, run_inserts ll st1 ops = some (n, st2) ∧
      linked_list_size st2 (some ll) = some n := by
  obtain ⟨hn, hm1, _, hc1⟩ := create_ok hcreate
  refine ⟨by simpa using size_of_nodes hn, ?_⟩
  obtain ⟨n, st2, ns2, hrun, hn2, hl2, hle⟩ :=
    run_inserts_size hwb ops st1 [] hn (hm1.trans hm) (hc1 hc) hidx
  refine ⟨n, st2, hrun, ?_⟩
  rw [size_of_nodes hn2, hl2]
  simp only [List.length_nil, Nat.zero_add]
  rw [Nat.mod_eq_of_lt (by omega)]

theorem live_le_max_addr (tr : List Event) : ∀ a ∈ live tr, a ≤ max_addr tr := by
  induction tr with
  | nil => intro a ha; simp [live] at ha
  | cons e tr ih =>
    intro a ha
    cases e with
    | malloc size ret =>
      cases ret with
      | none => exact ih a (by simpa [live] using ha)
      | some b =>
        simp only [live, List.mem_cons] at ha
        simp only [max_addr]
        rcases ha with rfl | ha
        · exact Nat.le_max_left _ _
        · exact Nat.le_trans (ih a ha) (Nat.le_max_right _ _)
    | free b =>
      simp only [live, List.mem_filter] at ha
      exact ih a ha.1

theorem bump_well_behaved : well_behaved bump := by
  intro tr size a ha hmem
  have := live_le_max_addr tr a hmem
  simp only [bump, Option.some.injEq] at ha
  rw [← ha] at this
  exact Nat.not_succ_le_self _ this

/-- C4, at a concrete input: create, then insert at the front, at the end, at
index 1 and (failing) at index 9. -/
theorem size_counts_successful_inserts_witness :
    linked_list_size ⟨some bump, some 0, [(1, Obj.listObj ⟨none⟩)],
        [Event.malloc sizeof_linked_list (some 1)]⟩ (some 1) = some 0 ∧
    ∃ n st2, run_inserts 1 ⟨some bump, some 0, [(1, Obj.listObj ⟨none⟩)],
        [Event.malloc sizeof_linked_list (some 1)]⟩
        [InsertOp.front 5, InsertOp.back 7, InsertOp.at_index 1 6, InsertOp.at_index 9 8]
        = some (n, st2) ∧
      linked_list_size st2 (some 1) = some n :=
  size_counts_successful_inserts st_init _ bump 1
    [InsertOp.front 5, InsertOp.back 7, InsertOp.at_index 1 6, InsertOp.at_index 9 8]
    rfl bump_well_behaved rfl rfl (by decide) (by decide)

theorem walk_node_chain {h : Heap} {index : Nat} (post : List (Addr × Nat))
    (hidx : index < SIZE_MOD) (pre : List (Addr × Nat)) :
    ∀ {p : Option Addr} (fuel i : Nat), chain h p (pre ++ post) →
      (i + pre.length = index ∨ (post = [] ∧ i + pre.length < index)) →
      pre.length < fuel →
      walk_node h index fuel p i = some (first_ptr post, i + pre.length) := by
  induction pre with
  | nil =>
    intro p fuel i hc hi hfuel
    obtain ⟨fuel, rfl⟩ : ∃ f, fuel = f + 1 := ⟨fuel - 1, by simp at hfuel; omega⟩
    cases post with
    | nil =>
      simp only [List.append_nil, chain] at hc
      subst hc
      simp [walk_node, first_ptr]
    | cons n post =>
      obtain ⟨a, v⟩ := n
      obtain ⟨hp, _⟩ := hc
      subst hp
      have : ¬ i < index := by
        rcases hi with hi | ⟨hi, _⟩
        · simp at hi; omega
        · cases hi
      simp [walk_node, first_ptr, this]
  | cons n pre ih =>
    obtain ⟨a, v⟩ := n
    intro p fuel i hc hi hfuel
    obtain ⟨fuel, rfl⟩ : ∃ f, fuel = f + 1 := ⟨fuel - 1, by simp at hfuel; omega⟩
    obtain ⟨hp, nx, hr, hc1⟩ := hc
    subst hp
    simp only [List.length_cons] at hi hfuel
    have hlt : i < index := by rcases hi with hi | ⟨_, hi⟩ <;> omega
    have hmod : (i + 1) % SIZE_MOD = i + 1 := Nat.mod_eq_of_lt (by omega)
    have hi1 : i + 1 + pre.length = index ∨ (post = [] ∧ i + 1 + pre.length < index) := by
      rcases hi with hi | ⟨hpost, hi⟩
      · exact Or.inl (by omega)
      · exact Or.inr ⟨hpost, by omega⟩
    have := ih fuel (i + 1) hc1 hi1 (by omega)
    simp only [walk_node, hlt, if_true, hr, hmod, this, List.length_cons]
    congr 2
    omega

theorem create_iterator_out_of_range {st : State} {ll b : Addr} {f : MallocFn} {fr : FreeFn}
    (index : Nat) (ns : List (Addr × Nat)) (hn : list_nodes st.heap ll ns)
    (hm : st.malloc_fptr = some f) (hf : st.free_fptr = some fr)
    (hb : f.run st.trace sizeof_iterator = some b) (hfresh : read st.heap b = none)
    (hk : index < SIZE_MOD) (hle : ns.length ≤ index) :
    linked_list_create_iterator st (some ll) index
      = some (none,
          { st with trace :=
              Event.free b :: Event.malloc sizeof_iterator (some b) :: st.trace }) := by
  obtain ⟨p, hl, hc⟩ := list_nodes_alloc hn hfresh
  have hi : 0 + ns.length = index ∨ (([] : List (Addr × Nat)) = [] ∧ 0 + ns.length < index) := by
    rcases Nat.lt_or_ge ns.length index with hlt | hge
    · exact Or.inr ⟨rfl, by omega⟩
    · exact Or.inl (by omega)
  have hw := walk_node_chain [] hk ns (index + 1) 0 (by simpa using hc) hi (by omega)
  simp [linked_list_create_iterator, hm, hf, call_malloc, hb, hl, hw, first_ptr, call_free,
    release_alloc hfresh]

theorem create_iterator_alloc_fail {st : State} {f : MallocFn} {fr : FreeFn}
    (ll : Addr) (index : Nat)
    (hm : st.malloc_fptr = some f) (hf : st.free_fptr = some fr)
    (hb : f.run st.trace sizeof_iterator = none) :
    linked_list_create_iterator st (some ll) index
      = some (none, { st with trace := Event.malloc sizeof_iterator none :: st.trace }) := by
  simp [linked_list_create_iterator, hm, hf, call_malloc, hb]

/-- C5: with both slots registered and the node allocation handing out a fresh
block, for `i ≤ length l`, `linked_list_insert(list, i, v)` followed by
`linked_list_remove(list, i)` both return `true` and the list holds `l` again:
`linked_list_size` is back at its prior value, and the insert had added exactly
one occurrence of `v`, which the remove takes away. -/
theorem insert_then_remove_restores (st : State) (ll a : Addr) (f : MallocFn) (fr : FreeFn)
    (l : List Nat) (i v : Nat)
    (hl : list_holds st.heap ll l)
    (hm : st.malloc_fptr = some f) (hf : st.free_fptr = some fr)
    (ha : f.run st.trace sizeof_node = some a) (hfresh : read st.heap a = none)
    (hi : i ≤ l.length) (hk : i < SIZE_MOD) :
    ∃ st1 st2 l1 n, linked_list_insert st (some ll) i v = some (true, st1) ∧
      list_holds st1.heap ll l1 ∧ l1.count v = l.count v + 1 ∧
      linked_list_remove st1 (some ll) i = some (true, st2) ∧
      list_holds st2.heap ll l ∧
      linked_list_size st (some ll) = some n ∧ linked_list_size st2 (some ll) = some n := by
  obtain ⟨ns, hn, rfl⟩ := hl
  simp only [List.length_map] at hi
  have hsplit : ns.take i ++ ns.drop i = ns := List.take_append_drop i ns
  have hlen : (ns.take i).length = i := by simp [hi]
  have hn0 := hn
  rw [← hsplit] at hn
  obtain ⟨h2, hres, hnodes, _⟩ := insert_ok v (ns.take i) (ns.drop i) hn hm hf ha hfresh
    (by rw [hlen]; exact hk)
  obtain ⟨h3, hres2, hnodes2, _⟩ := @remove_ok
    { st with heap := h2, trace := Event.malloc sizeof_node (some a) :: st.trace }
    ll a fr v (ns.take i) (ns.drop i) hnodes hf (by rw [hlen]; exact hk)
  rw [hlen] at hres hres2
  rw [hsplit] at hnodes2
  refine ⟨_, _, _, ns.length % SIZE_MOD, hres, ⟨_, hnodes, rfl⟩, ?_, hres2, ⟨_, hnodes2, rfl⟩,
    size_of_nodes hn0, size_of_nodes hnodes2⟩
  have hcount : (ns.map Prod.snd).count v
      = ((ns.take i).map Prod.snd).count v + ((ns.drop i).map Prod.snd).count v := by
    rw [← List.count_append, ← List.map_append, hsplit]
  rw [hcount]
  simp [List.count_append, List.count_cons]
  omega

/-- C5, at a concrete input: inserting 9 at index 1 of `[5, 7]`, then removing
index 1. -/
theorem insert_then_remove_restores_witness :
    ∃ st1 st2 l1 n, linked_list_insert st_two (some 1) 1 9 = some (true, st1) ∧
      list_holds st1.heap 1 l1 ∧ l1.count 9 = ([5, 7] : List Nat).count 9 + 1 ∧
      linked_list_remove st1 (some 1) 1 = some (true, st2) ∧
      list_holds st2.heap 1 [5, 7] ∧
      linked_list_size st_two (some 1) = some n ∧ linked_list_size st2 (some 1) = some n :=
  insert_then_remove_restores st_two 1 4 bump 0 [5, 7] 1 9 list_holds_st_two rfl rfl rfl rfl
    (by decide) (by decide)

/-- C6: on a list holding `l` (both slots registered, the allocations handing
out fresh blocks), with `index = linked_list_size(list)`:
`linked_list_insert(list, index, v)` returns `true` and the list then holds
`l ++ [v]`; `linked_list_remove(list, index)` returns `false` and
`linked_list_create_iterator(list, index)` returns `NULL`, both leaving the
heap, hence the list, as it was. -/
theorem boundary_index_eq_size (st : State) (ll a b : Addr) (f : MallocFn) (fr : FreeFn)
    (l : List Nat) (index v : Nat)
    (hl : list_holds st.heap ll l) (hlen : l.length < SIZE_MOD)
    (hm : st.malloc_fptr = some f) (hf : st.free_fptr = some fr)
    (ha : f.run st.trace sizeof_node = some a) (hfresh : read st.heap a = none)
    (hb : f.run st.trace sizeof_iterator = some b) (hbfresh : read st.heap b = none)
    (hsize : linked_list_size st (some ll) = some index) :
    (∃ st1, linked_list_insert st (some ll) index v = some (true, st1) ∧
      list_holds st1.heap ll (l ++ [v])) ∧
    linked_list_remove st (some ll) index = some (false, st) ∧
    (∃ st3, linked_list_create_iterator st (some ll) index = some (none, st3) ∧
      st3.heap = st.heap ∧ list_holds st3.heap ll l) := by
  obtain ⟨ns, hn, rfl⟩ := hl
  simp only [List.length_map] at hlen
  rw [size_of_nodes hn, Nat.mod_eq_of_lt hlen] at hsize
  cases hsize
  refine ⟨?_, remove_out_of_range _ ns hn hf hlen (Nat.le_refl _),
    ⟨_, create_iterator_out_of_range _ ns hn hm hf hb hbfresh hlen (Nat.le_refl _), rfl,
      ⟨ns, hn, rfl⟩⟩⟩
  have hn2 : list_nodes st.heap ll (ns ++ []) := by simpa using hn
  obtain ⟨h2, hres, hnodes, _⟩ := insert_ok v ns [] hn2 hm hf ha hfresh hlen
  exact ⟨_, hres, _, hnodes, by simp⟩

/-- C6, at a concrete input: index 2 on the list `[5, 7]`. -/
theorem boundary_index_eq_size_witness :
    (∃ st1, linked_list_insert st_two (some 1) 2 9 = some (true, st1) ∧
      list_holds st1.heap 1 ([5, 7] ++ [9])) ∧
    linked_list_remove st_two (some 1) 2 = some (false, st_two) ∧
    (∃ st3, linked_list_create_iterator st_two (some 1) 2 = some (none, st3) ∧
      st3.heap = st_two.heap ∧ list_holds st3.heap 1 [5, 7]) :=
  boundary_index_eq_size st_two 1 4 4 bump 0 [5, 7] 2 9 list_holds_st_two (by decide)
    rfl rfl rfl rfl rfl rfl rfl

/-- C7: after `linked_list_insert(list, k, v)` has returned `true` on a list
holding `l` in which `v` does not occur before position `k`,
`linked_list_find(list, v)` returns an index `≤ k`, not the sentinel
`SIZE_MAX`. -/
theorem find_after_insert_le_index (st st1 : State) (ll a : Addr) (f : MallocFn)
    (l : List Nat) (k v : Nat)
    (hl : list_holds st.heap ll l) (hlen : l.length < SIZE_MAX) (hk : k < SIZE_MOD)
    (hm : st.malloc_fptr = some f)
    (ha : f.run st.trace sizeof_node = some a) (hfresh : read st.heap a = none)
    (hins : linked_list_insert st (some ll) k v = some (true, st1))
    (hno : ∀ j, j < k → l[j]? ≠ some v) :
    ∃ i, linked_list_find st1 (some ll) v = some i ∧ i ≤ k ∧ i ≠ SIZE_MAX := by
  obtain ⟨ns, hn, rfl⟩ := hl
  simp only [List.length_map] at hlen
  have hmax : SIZE_MAX < SIZE_MOD := by decide
  rcases Option.eq_none_or_eq_some st.free_fptr with hf | ⟨fr, hf⟩
  · simp [linked_list_insert, hf] at hins
  have hkl : k ≤ ns.length := by
    by_contra hgt
    rw [insert_out_of_range v k ns hn hm hf ha hfresh hk (by omega)] at hins
    cases hins
  have hsplit : ns.take k ++ ns.drop k = ns := List.take_append_drop k ns
  have hlk : (ns.take k).length = k := by simp [hkl]
  have hn2 := hn
  rw [← hsplit] at hn2
  obtain ⟨h2, hres, hnodes, _⟩ := insert_ok v (ns.take k) (ns.drop k) hn2 hm hf ha hfresh
    (by rw [hlk]; omega)
  rw [hlk, hins] at hres
  obtain ⟨-, hst⟩ := Prod.mk.inj (Option.some.inj hres)
  have hnodes1 : list_nodes st1.heap ll (ns.take k ++ (a, v) :: ns.drop k) := by
    rw [hst]; exact hnodes
  have hpre : v ∉ (ns.take k).map Prod.snd := by
    intro hv
    obtain ⟨j, hj, e⟩ := List.getElem_of_mem hv
    simp only [List.length_map, List.length_take] at hj
    refine hno j (by omega) ?_
    rw [List.getElem?_eq_getElem (by simp; omega)]
    rw [← e]
    simp [List.getElem_take]
  have := find_first (ns.take k) (ns.drop k) hnodes1 hpre (by rw [hlk]; omega)
  rw [hlk] at this
  exact ⟨k, this, Nat.le_refl _, by omega⟩


/-- C7, at a concrete input: inserting 9 at index 1 of `[5, 7]`, then finding 9. -/
theorem find_after_insert_le_index_witness :
    ∃ i, linked_list_find
        { st_two with
          heap := [(4, Obj.nodeObj ⟨9, some 3⟩), (3, Obj.nodeObj ⟨7, none⟩),
                   (2, Obj.nodeObj ⟨5, some 4⟩), (1, Obj.listObj ⟨some 2⟩)],
          trace := Event.malloc sizeof_node (some 4) :: st_two.trace }
        (some 1) 9 = some i ∧ i ≤ 1 ∧ i ≠ SIZE_MAX :=
  find_after_insert_le_index st_two _ 1 4 bump [5, 7] 1 9 list_holds_st_two (by decide)
    (by decide) rfl rfl rfl rfl (by decide)

/-- C8: on a list holding `l` in which `v` occurs exactly once, at position
`i = linked_list_find(list, v)`: after `linked_list_remove(list, i)` has
returned `true`, `linked_list_find(list, v)` returns `SIZE_MAX`, which is not
`i`. -/
theorem find_after_remove_unique (st st1 : State) (ll : Addr) (l : List Nat) (v i : Nat)
    (hl : list_holds st.heap ll l) (hlen : l.length < SIZE_MOD)
    (hcount : l.count v = 1)
    (hfind : linked_list_find st (some ll) v = some i)
    (hrem : linked_list_remove st (some ll) i = some (true, st1)) :
    linked_list_find st1 (some ll) v = some SIZE_MAX ∧ SIZE_MAX ≠ i := by
  obtain ⟨ns, hn, rfl⟩ := hl
  have hv : v ∈ ns.map Prod.snd := List.count_pos_iff.1 (by omega)
  obtain ⟨pre, c, post, rfl, hpre⟩ := first_split v ns hv
  simp only [List.map_append, List.map_cons, List.length_append, List.length_map,
    List.length_cons, List.count_append, List.count_cons_self] at hlen hcount
  have hpost : v ∉ post.map Prod.snd := List.count_eq_zero.1 (by omega)
  rw [find_first pre post hn hpre (by omega)] at hfind
  cases hfind
  rcases Option.eq_none_or_eq_some st.free_fptr with hf | ⟨fr, hf⟩
  · simp [linked_list_remove, hf] at hrem
  obtain ⟨h2, hres, hnodes, _⟩ := remove_ok pre post hn hf (by omega)
  rw [hrem] at hres
  obtain ⟨-, hst⟩ := Prod.mk.inj (Option.some.inj hres)
  have hnodes1 : list_nodes st1.heap ll (pre ++ post) := by rw [hst]; exact hnodes
  refine ⟨find_absent hnodes1 ?_, ?_⟩
  · simp only [List.map_append, List.mem_append, not_or]
    exact ⟨hpre, hpost⟩
  · have : SIZE_MAX + 1 = SIZE_MOD := by decide
    omega

/-- C8, at a concrete input: 7 occurs once in `[5, 7]`, at index 1. -/
theorem find_after_remove_unique_witness :
    linked_list_find
        { st_two with
          heap := [(2, Obj.nodeObj ⟨5, none⟩), (1, Obj.listObj ⟨some 2⟩)],
          trace := Event.free 3 :: st_two.trace }
        (some 1) 7 = some SIZE_MAX ∧ SIZE_MAX ≠ 1 :=
  find_after_remove_unique st_two _ 1 [5, 7] 7 1 list_holds_st_two (by decide) (by decide)
    rfl rfl

/-- C9: while the allocate slot is unset, `linked_list_create` and
`linked_list_create_iterator` return `NULL` and the three insert functions
return `false`; while the release slot is unset, `linked_list_delete`,
`linked_list_remove` and `linked_list_delete_iterator` return `false`; for
every argument.  Each of these calls leaves the whole state as it was: the
heap (so every list keeps its sequence) and the history of allocator calls (so
neither routine has been invoked). -/
theorem unset_slot_guards (st : State) :
    (st.malloc_fptr = none →
      linked_list_create st = some (none, st) ∧
      ∀ (ll : Option Addr) (index data : Nat),
        linked_list_create_iterator st ll index = some (none, st) ∧
        linked_list_insert_front st ll data = some (false, st) ∧
        linked_list_insert_end st ll data = some (false, st) ∧
        linked_list_insert st ll index data = some (false, st)) ∧
    (st.free_fptr = none →
      ∀ (ll iter : Option Addr) (index : Nat),
        linked_list_delete st ll = some (false, st) ∧
        linked_list_remove st ll index = some (false, st) ∧
        linked_list_delete_iterator st iter = (false, st)) := by
  refine ⟨fun hm => ⟨by simp [linked_list_create, hm], fun ll index data => ?_⟩,
    fun hf ll iter index => ?_⟩
  · cases ll <;> simp [linked_list_create_iterator, linked_list_insert_front,
      linked_list_insert_end, linked_list_insert, hm]
  · cases ll <;> cases iter <;> simp [linked_list_delete, linked_list_remove,
      linked_list_delete_iterator, hf]

/-- C9, at a concrete input: the state holding the list `[5, 7]`, with both
slots unset. -/
theorem unset_slot_guards_witness :
    (linked_list_create { st_two with malloc_fptr := none, free_fptr := none }
        = some (none, { st_two with malloc_fptr := none, free_fptr := none }) ∧
      ∀ (ll : Option Addr) (index data : Nat),
        linked_list_create_iterator { st_two with malloc_fptr := none, free_fptr := none }
            ll index
          = some (none, { st_two with malloc_fptr := none, free_fptr := none }) ∧
        linked_list_insert_front { st_two with malloc_fptr := none, free_fptr := none } ll data
          = some (false, { st_two with malloc_fptr := none, free_fptr := none }) ∧
        linked_list_insert_end { st_two with malloc_fptr := none, free_fptr := none } ll data
          = some (false, { st_two with malloc_fptr := none, free_fptr := none }) ∧
        linked_list_insert { st_two with malloc_fptr := none, free_fptr := none } ll index data
          = some (false, { st_two with malloc_fptr := none, free_fptr := none })) ∧
    (∀ (ll iter : Option Addr) (index : Nat),
        linked_list_delete { st_two with malloc_fptr := none, free_fptr := none } ll
          = some (false, { st_two with malloc_fptr := none, free_fptr := none }) ∧
        linked_list_remove { st_two with malloc_fptr := none, free_fptr := none } ll index
          = some (false, { st_two with malloc_fptr := none, free_fptr := none }) ∧
        linked_list_delete_iterator { st_two with malloc_fptr := none, free_fptr := none } iter
          = (false, { st_two with malloc_fptr := none, free_fptr := none })) :=
  ⟨(unset_slot_guards { st_two with malloc_fptr := none, free_fptr := none }).1 rfl,
   (unset_slot_guards { st_two with malloc_fptr := none, free_fptr := none }).2 rfl⟩

/-- C10: on a list holding `l`, each of `linked_list_insert_front`,
`linked_list_insert_end`, `linked_list_insert` and `linked_list_remove`
returns, and when it returns `false` (index out of range, allocation failed,
or a required slot unset) the heap is as it was before the call, so the list
still holds `l`. -/
theorem failure_leaves_list_unchanged (st : State) (ll : Addr) (l : List Nat)
    (index v : Nat)
    (hl : list_holds st.heap ll l) (hidx : index < SIZE_MOD)
    (hfresh : ∀ f a, st.malloc_fptr = some f → f.run st.trace sizeof_node = some a →
      read st.heap a = none) :
    (∃ b st1, linked_list_insert_front st (some ll) v = some (b, st1) ∧
      (b = false → st1.heap = st.heap ∧ list_holds st1.heap ll l)) ∧
    (∃ b st1, linked_list_insert_end st (some ll) v = some (b, st1) ∧
      (b = false → st1.heap = st.heap ∧ list_holds st1.heap ll l)) ∧
    (∃ b st1, linked_list_insert st (some ll) index v = some (b, st1) ∧
      (b = false → st1.heap = st.heap ∧ list_holds st1.heap ll l)) ∧
    (∃ b st1, linked_list_remove st (some ll) index = some (b, st1) ∧
      (b = false → st1.heap = st.heap ∧ list_holds st1.heap ll l)) := by
  have key : ∀ op : InsertOp, op.index < SIZE_MOD →
      ∃ b st1, apply_insert st ll op = some (b, st1) ∧
        (b = false → st1.heap = st.heap ∧ list_holds st1.heap ll l) := by
    intro op hop
    obtain ⟨ns, hn, rfl⟩ := hl
    obtain ⟨b, st1, ns1, hstep, hn1, _, hfalse, _, _⟩ := apply_insert_total op hn hop hfresh
    refine ⟨b, st1, hstep, fun hb => ⟨(hfalse hb).1, ns1, hn1, ?_⟩⟩
    rw [(hfalse hb).2]
  refine ⟨key (InsertOp.front v) (by simp [InsertOp.index, size_mod_pos]),
    key (InsertOp.back v) (by simp [InsertOp.index, size_mod_pos]),
    key (InsertOp.at_index index v) hidx, ?_⟩
  rcases Option.eq_none_or_eq_some st.free_fptr with hf | ⟨fr, hf⟩
  · exact ⟨false, st, by simp [linked_list_remove, hf], fun _ => ⟨rfl, hl⟩⟩
  obtain ⟨ns, hn, rfl⟩ := hl
  rcases Nat.lt_or_ge index ns.length with hlt | hle
  · have hsplit : ns.take index ++ ns[index] :: ns.drop (index + 1) = ns := by
      rw [← List.drop_eq_getElem_cons hlt, List.take_append_drop]
    have hlen : (ns.take index).length = index := by simp [Nat.le_of_lt hlt]
    have hn2 := hn
    rw [← hsplit] at hn2
    obtain ⟨h2, hres, _, _⟩ := remove_ok (ns.take index) (ns.drop (index + 1)) hn2 hf
      (by rw [hlen]; exact hidx)
    rw [hlen] at hres
    exact ⟨true, _, hres, by simp⟩
  · exact ⟨false, st, remove_out_of_range index ns hn hf hidx hle, fun _ => ⟨rfl, ns, hn, rfl⟩⟩

/-- C10, at a concrete input: the list `[5, 7]` with an allocator that is out
of memory; the three inserts fail on the allocation and the remove on its
index 9. -/
theorem failure_leaves_list_unchanged_witness :
    (∃ b st1, linked_list_insert_front { st_two with malloc_fptr := some no_memory } (some 1) 9
        = some (b, st1) ∧
      (b = false → st1.heap = st_two.heap ∧ list_holds st1.heap 1 [5, 7])) ∧
    (∃ b st1, linked_list_insert_end { st_two with malloc_fptr := some no_memory } (some 1) 9
        = some (b, st1) ∧
      (b = false → st1.heap = st_two.heap ∧ list_holds st1.heap 1 [5, 7])) ∧
    (∃ b st1, linked_list_insert { st_two with malloc_fptr := some no_memory } (some 1) 9 9
        = some (b, st1) ∧
      (b = false → st1.heap = st_two.heap ∧ list_holds st1.heap 1 [5, 7])) ∧
    (∃ b st1, linked_list_remove { st_two with malloc_fptr := some no_memory } (some 1) 9
        = some (b, st1) ∧
      (b = false → st1.heap = st_two.heap ∧ list_holds st1.heap 1 [5, 7])) :=
  failure_leaves_list_unchanged { st_two with malloc_fptr := some no_memory } 1 [5, 7] 9 9
    list_holds_st_two (by decide)
    (fun f a hm ha => by cases hm; cases ha)

/-! ## Cursors -/

theorem read_of_read_iter {h : Heap} {a : Addr} {I : iterator}
    (e : read_iter h a = some I) : read h a = some (Obj.iterObj I) := by
  unfold read_iter at e
  split at e
  · rename_i l hl; cases e; exact hl
  · cases e

theorem list_nodes_frame {h h1 : Heap} {ll : Addr} {ns : List (Addr × Nat)}
    (hn : list_nodes h ll ns)
    (hf : ∀ x, ((∃ n, read h x = some (Obj.nodeObj n)) ∨ (∃ L, read h x = some (Obj.listObj L))) →
      read h1 x = read h x) : list_nodes h1 ll ns := by
  obtain ⟨p, hl, hc⟩ := hn
  refine ⟨p, ?_, chain_congr hc fun x hx => hf x (Or.inl (chain_live hc x hx))⟩
  rw [read_list_of_read (hf ll (Or.inr ⟨_, read_of_read_list hl⟩)), hl]

theorem list_nodes_store_iter {h h1 : Heap} {ll it : Addr} {ns : List (Addr × Nat)}
    {o : Obj} {J : iterator} (hn : list_nodes h ll ns) (hi : read h it = some o)
    (hnode : ∀ n, o ≠ Obj.nodeObj n) (hlist : ∀ L, o ≠ Obj.listObj L)
    (hs : store h it (Obj.iterObj J) = some h1) : list_nodes h1 ll ns := by
  refine list_nodes_frame hn fun x hx => ?_
  rw [read_store hs]
  have hne : x ≠ it := by
    rintro rfl
    rcases hx with ⟨n, e⟩ | ⟨L, e⟩ <;> rw [hi] at e <;> cases e
    · exact hnode n rfl
    · exact hlist L rfl
  simp [hne]

theorem iterate_advance {st : State} {it ll c c2 : Addr} {I : iterator} {v v2 : Nat}
    (pre post : List (Addr × Nat))
    (hn : list_nodes st.heap ll (pre ++ (c, v) :: (c2, v2) :: post))
    (hi : read_iter st.heap it = some I) (hcur : I.current_node = some c) :
    ∃ h1, linked_list_iterate st (some it) = some (true, { st with heap := h1 }) ∧
      read_iter h1 it = some { I with current_node := some c2,
                                      current_index := (I.current_index + 1) % SIZE_MOD,
                                      data := v2 } ∧
      list_nodes h1 ll (pre ++ (c, v) :: (c2, v2) :: post) ∧ keys h1 = keys st.heap := by
  have hn0 := hn
  obtain ⟨p, hl, hc⟩ := hn
  obtain ⟨q, hrc, hcq⟩ := chain_mid pre hc
  obtain ⟨hq, q2, hrc2, _⟩ := hcq
  subst hq
  obtain ⟨h1, hs⟩ : ∃ h1, store st.heap it (Obj.iterObj
      { I with current_node := some c2, current_index := (I.current_index + 1) % SIZE_MOD,
               data := v2 }) = some h1 := ⟨_, store_of_live (read_of_read_iter hi) _⟩
  refine ⟨h1, ?_, by simp [read_iter, read_store hs],
    list_nodes_store_iter hn0 (read_of_read_iter hi) (by simp) (by simp) hs, keys_store hs⟩
  simp [linked_list_iterate, hi, hcur, hrc, hrc2, hs]

theorem iterate_last {st : State} {it ll c : Addr} {I : iterator} {v : Nat}
    (pre : List (Addr × Nat)) (hn : list_nodes st.heap ll (pre ++ [(c, v)]))
    (hi : read_iter st.heap it = some I) (hcur : I.current_node = some c) :
    linked_list_iterate st (some it) = some (false, st) := by
  obtain ⟨p, hl, hc⟩ := hn
  obtain ⟨q, hrc, hcq⟩ := chain_mid pre hc
  simp only [chain] at hcq
  subst hcq
  simp [linked_list_iterate, hi, hcur, hrc]

theorem create_iterator_ok {st : State} {ll b c : Addr} {f : MallocFn} {fr : FreeFn} {v : Nat}
    (pre post : List (Addr × Nat)) (hn : list_nodes st.heap ll (pre ++ (c, v) :: post))
    (hm : st.malloc_fptr = some f) (hf : st.free_fptr = some fr)
    (hb : f.run st.trace sizeof_iterator = some b) (hfresh : read st.heap b = none)
    (hk : pre.length < SIZE_MOD) :
    ∃ h2, linked_list_create_iterator st (some ll) pre.length
        = some (some b, { st with heap := h2,
                                  trace := Event.malloc sizeof_iterator (some b) :: st.trace }) ∧
      cursor_at h2 b ll c pre.length v ∧
      list_nodes h2 ll (pre ++ (c, v) :: post) ∧ keys h2 = b :: keys st.heap := by
  have hn1 := list_nodes_alloc hn hfresh
  obtain ⟨p, hl, hc⟩ := hn1
  have hraw : read (alloc st.heap b) b = some Obj.raw := by simp [read_alloc]
  have hw := walk_node_chain ((c, v) :: post) hk pre (pre.length + 1) 0 hc
    (Or.inl (by simp)) (by omega)
  obtain ⟨q, hrc, _⟩ := chain_mid pre hc
  obtain ⟨h2, hs⟩ : ∃ h2, store (alloc st.heap b) b (Obj.iterObj
      { ll := some ll, current_node := some c, current_index := pre.length, data := v })
        = some h2 := ⟨_, store_of_live hraw _⟩
  refine ⟨h2, ?_, by simp [cursor_at, read_iter, read_store hs],
    list_nodes_store_iter ⟨p, hl, hc⟩ hraw (by simp) (by simp) hs,
    by rw [keys_store hs, keys_alloc]⟩
  simp [linked_list_create_iterator, hm, hf, call_malloc, hb, hl, hw, first_ptr, hrc, hs]

theorem split_at_index {ns : List (Addr × Nat)} {k : Nat} (hk : k < ns.length) :
    ∃ c v, ns[k]? = some (c, v) ∧ ns = ns.take k ++ (c, v) :: ns.drop (k + 1) ∧
      (ns.take k).length = k := by
  refine ⟨ns[k].1, ns[k].2, by simp [List.getElem?_eq_getElem hk], ?_, by simp [Nat.le_of_lt hk]⟩
  rw [← List.drop_eq_getElem_cons hk, List.take_append_drop]

theorem split_of_getElem {ns : List (Addr × Nat)} {k : Nat} {c : Addr} {v : Nat}
    (h : ns[k]? = some (c, v)) :
    ns = ns.take k ++ (c, v) :: ns.drop (k + 1) ∧ (ns.take k).length = k := by
  obtain ⟨hk, e⟩ := List.getElem?_eq_some.1 h
  refine ⟨?_, by simp [Nat.le_of_lt hk]⟩
  rw [← e, ← List.drop_eq_getElem_cons hk, List.take_append_drop]

theorem iterate_n_last {st : State} {it ll c : Addr} {I : iterator} {v : Nat}
    (pre : List (Addr × Nat)) (hn : list_nodes st.heap ll (pre ++ [(c, v)]))
    (hi : read_iter st.heap it = some I) (hcur : I.current_node = some c) (n : Nat) :
    iterate_n (some it) n st = some (List.replicate n false, st) := by
  induction n with
  | zero => rfl
  | succ n ih => simp [iterate_n, iterate_last pre hn hi hcur, ih, List.replicate_succ]

/-- C12: on a cursor whose current node is the last node of a non-empty list,
any number of `linked_list_iterate` calls in a row all return `false` and
leave the whole state as it was: the cursor (current node, recorded index,
cached value) and the list. -/
theorem iterate_idempotent_at_end (st : State) (it ll c : Addr) (I : iterator) (v : Nat)
    (pre : List (Addr × Nat)) (n : Nat)
    (hn : list_nodes st.heap ll (pre ++ [(c, v)]))
    (hi : read_iter st.heap it = some I) (hcur : I.current_node = some c) :
    linked_list_iterate st (some it) = some (false, st) ∧
    iterate_n (some it) n st = some (List.replicate n false, st) :=
  ⟨iterate_last pre hn hi hcur, iterate_n_last pre hn hi hcur n⟩


theorem list_nodes_st_two : list_nodes st_two.heap 1 [(2, 5), (3, 7)] :=
  ⟨some 2, rfl, rfl, some 3, rfl, rfl, none, rfl, rfl⟩

theorem list_nodes_st_cursor_first : list_nodes st_cursor_first.heap 1 [(2, 5), (3, 7)] :=
  ⟨some 2, rfl, rfl, some 3, rfl, rfl, none, rfl, rfl⟩

theorem list_nodes_st_cursor_last : list_nodes st_cursor_last.heap 1 [(2, 5), (3, 7)] :=
  ⟨some 2, rfl, rfl, some 3, rfl, rfl, none, rfl, rfl⟩

/-- C12, at a concrete input: three calls on a cursor on the last node of
`[5, 7]`. -/
theorem iterate_idempotent_at_end_witness :
    linked_list_iterate st_cursor_last (some 4) = some (false, st_cursor_last) ∧
    iterate_n (some 4) 3 st_cursor_last = some (List.replicate 3 false, st_cursor_last) :=
  iterate_idempotent_at_end st_cursor_last 4 1 3 ⟨some 1, some 3, 1, 7⟩ 7 [(2, 5)] 3
    list_nodes_st_cursor_last rfl rfl

/-- C13: on a list whose nodes are `ns` (it holds the values `ns.map snd`),
with both slots registered and the cursor allocation handing out a fresh
block, `linked_list_create_iterator(list, k)` returns a cursor exactly when
`k < length`; the cursor refers to the list, its current node is the `k`-th
node, its recorded index is `k` and its cached value is the `k`-th value; the
list keeps its nodes and values. -/
theorem create_iterator_iff_index_lt_length (st : State) (ll b : Addr) (f : MallocFn)
    (fr : FreeFn) (ns : List (Addr × Nat)) (k : Nat)
    (hn : list_nodes st.heap ll ns)
    (hm : st.malloc_fptr = some f) (hf : st.free_fptr = some fr)
    (hb : f.run st.trace sizeof_iterator = some b) (hfresh : read st.heap b = none)
    (hk : k < SIZE_MOD) :
    ∃ r st1, linked_list_create_iterator st (some ll) k = some (r, st1) ∧
      (r ≠ none ↔ k < ns.length) ∧
      list_nodes st1.heap ll ns ∧
      ∀ it, r = some it → ∃ c v, ns[k]? = some (c, v) ∧ (ns.map Prod.snd)[k]? = some v ∧
        cursor_at st1.heap it ll c k v := by
  rcases Nat.lt_or_ge k ns.length with hlt | hle
  · obtain ⟨c, v, hget, hsplit, hlen⟩ := split_at_index hlt
    have hn2 := hn
    rw [hsplit] at hn2
    obtain ⟨h2, hres, hcur, hnodes, _⟩ :=
      create_iterator_ok (ns.take k) (ns.drop (k + 1)) hn2 hm hf hb hfresh (by rw [hlen]; exact hk)
    rw [hlen] at hres hcur
    rw [← hsplit] at hnodes
    refine ⟨some b, _, hres, by simpa using hlt, hnodes, fun it hit => ?_⟩
    cases hit
    exact ⟨c, v, hget, by simp [List.getElem?_map, hget], hcur⟩
  · refine ⟨none, _, create_iterator_out_of_range k ns hn hm hf hb hfresh hk hle, ?_, hn,
      fun it hit => by cases hit⟩
    constructor
    · intro h; exact absurd rfl h
    · intro h; omega

/-- C13, at a concrete input: a cursor at index 1 of `[5, 7]`. -/
theorem create_iterator_iff_index_lt_length_witness :
    ∃ r st1, linked_list_create_iterator st_two (some 1) 1 = some (r, st1) ∧
      (r ≠ none ↔ 1 < [((2 : Addr), 5), (3, 7)].length) ∧
      list_nodes st1.heap 1 [(2, 5), (3, 7)] ∧
      ∀ it, r = some it → ∃ c v, [((2 : Addr), 5), (3, 7)][1]? = some (c, v) ∧
        ([((2 : Addr), 5), (3, 7)].map Prod.snd)[1]? = some v ∧
        cursor_at st1.heap it 1 c 1 v :=
  create_iterator_iff_index_lt_length st_two 1 4 bump 0 [(2, 5), (3, 7)] 1 list_nodes_st_two
    rfl rfl rfl rfl (by decide)

/-- C14: on a cursor at index `i` of a list with nodes `ns`, with
`i + 1 < length`, `linked_list_iterate` returns `true` and then the cursor is
on the `(i+1)`-th node, with recorded index `i + 1` and the `(i+1)`-th value
cached, the list being as before.  In any state, `linked_list_iterate` returns
`false` exactly when the cursor is `NULL`, or has a `NULL` current node, or its
current node has a `NULL` next link; the state is then as before. -/
theorem iterate_advances_or_stops (st : State) (it ll c c2 : Addr) (v v2 : Nat)
    (ns : List (Addr × Nat)) (i : Nat)
    (hn : list_nodes st.heap ll ns) (hlen : ns.length < SIZE_MOD)
    (hc : ns[i]? = some (c, v)) (hc2 : ns[i + 1]? = some (c2, v2))
    (hi : cursor_at st.heap it ll c i v) :
    (∃ st1, linked_list_iterate st (some it) = some (true, st1) ∧
      cursor_at st1.heap it ll c2 (i + 1) v2 ∧ list_nodes st1.heap ll ns) ∧
    ∀ (s s1 : State) (iter : Option Addr),
      linked_list_iterate s iter = some (false, s1) ↔
        s1 = s ∧ (iter = none ∨ ∃ a I, iter = some a ∧ read_iter s.heap a = some I ∧
          (I.current_node = none ∨ ∃ cn n, I.current_node = some cn ∧
            read_node s.heap cn = some n ∧ n.next = none)) := by
  constructor
  · obtain ⟨hsplit, hlk⟩ := split_of_getElem hc
    obtain ⟨hlt2, e2⟩ := List.getElem?_eq_some.1 hc2
    have hdrop : ns.drop (i + 1) = (c2, v2) :: ns.drop (i + 2) := by
      rw [List.drop_eq_getElem_cons hlt2, e2]
    rw [hdrop] at hsplit
    have hn2 := hn
    rw [hsplit] at hn2
    obtain ⟨h1, hres, hcur, hnodes, _⟩ := iterate_advance (ns.take i) (ns.drop (i + 2)) hn2 hi rfl
    rw [← hsplit] at hnodes
    refine ⟨_, hres, ?_, hnodes⟩
    have hmod : (i + 1) % SIZE_MOD = i + 1 := Nat.mod_eq_of_lt (by omega)
    simpa [cursor_at, hmod] using hcur
  · intro s s1 iter
    cases iter with
    | none => simp [linked_list_iterate, eq_comm]
    | some a =>
      rcases Option.eq_none_or_eq_some (read_iter s.heap a) with hr | ⟨I, hr⟩
      · simp [linked_list_iterate, hr]
      rcases Option.eq_none_or_eq_some I.current_node with hcn | ⟨cn, hcn⟩
      · simp [linked_list_iterate, hr, hcn, eq_comm]
      rcases Option.eq_none_or_eq_some (read_node s.heap cn) with hrn | ⟨n, hrn⟩
      · simp [linked_list_iterate, hr, hcn, hrn]
      rcases Option.eq_none_or_eq_some n.next with hnx | ⟨nx, hnx⟩
      · simp [linked_list_iterate, hr, hcn, hrn, hnx, eq_comm]
      rcases Option.eq_none_or_eq_some (read_node s.heap nx) with hr2 | ⟨n2, hr2⟩
      · simp [linked_list_iterate, hr, hcn, hrn, hnx, hr2]
      have hlive := read_of_read_iter hr
      simp [linked_list_iterate, hr, hcn, hrn, hnx, hr2, store, hlive]


/-- C14, at a concrete input: a cursor on the first node of `[5, 7]`. -/
theorem iterate_advances_or_stops_witness :
    (∃ st1, linked_list_iterate st_cursor_first (some 4) = some (true, st1) ∧
      cursor_at st1.heap 4 1 3 (0 + 1) 7 ∧ list_nodes st1.heap 1 [(2, 5), (3, 7)]) ∧
    ∀ (s s1 : State) (iter : Option Addr),
      linked_list_iterate s iter = some (false, s1) ↔
        s1 = s ∧ (iter = none ∨ ∃ a I, iter = some a ∧ read_iter s.heap a = some I ∧
          (I.current_node = none ∨ ∃ cn n, I.current_node = some cn ∧
            read_node s.heap cn = some n ∧ n.next = none)) :=
  iterate_advances_or_stops st_cursor_first 4 1 2 3 5 7 [(2, 5), (3, 7)] 0
    list_nodes_st_cursor_first (by decide) rfl rfl rfl

theorem iterate_advance_at {st : State} {it ll c c2 : Addr} {I : iterator} {v v2 : Nat}
    {ns : List (Addr × Nat)} {i : Nat} (hn : list_nodes st.heap ll ns)
    (hc : ns[i]? = some (c, v)) (hc2 : ns[i + 1]? = some (c2, v2))
    (hi : read_iter st.heap it = some I) (hcur : I.current_node = some c) :
    ∃ h1, linked_list_iterate st (some it) = some (true, { st with heap := h1 }) ∧
      read_iter h1 it = some { I with current_node := some c2,
                                      current_index := (I.current_index + 1) % SIZE_MOD,
                                      data := v2 } ∧
      list_nodes h1 ll ns ∧ keys h1 = keys st.heap := by
  obtain ⟨hsplit, hlk⟩ := split_of_getElem hc
  obtain ⟨hlt2, e2⟩ := List.getElem?_eq_some.1 hc2
  have hdrop : ns.drop (i + 1) = (c2, v2) :: ns.drop (i + 2) := by
    rw [List.drop_eq_getElem_cons hlt2, e2]
  rw [hdrop] at hsplit
  have hn2 := hn
  rw [hsplit] at hn2
  obtain ⟨h1, hres, hcur1, hnodes, hkeys⟩ :=
    iterate_advance (ns.take i) (ns.drop (i + 2)) hn2 hi hcur
  rw [← hsplit] at hnodes
  exact ⟨h1, hres, hcur1, hnodes, hkeys⟩

theorem iterate_last_at {st : State} {it ll c : Addr} {I : iterator} {v : Nat}
    {ns : List (Addr × Nat)} {i : Nat} (hn : list_nodes st.heap ll ns)
    (hc : ns[i]? = some (c, v)) (hlast : i + 1 = ns.length)
    (hi : read_iter st.heap it = some I) (hcur : I.current_node = some c) :
    linked_list_iterate st (some it) = some (false, st) := by
  obtain ⟨hsplit, hlk⟩ := split_of_getElem hc
  have hdrop : ns.drop (i + 1) = [] := List.drop_eq_nil_of_le (by omega)
  rw [hdrop] at hsplit
  have hn2 := hn
  rw [hsplit] at hn2
  exact iterate_last (ns.take i) hn2 hi hcur

theorem iterate_n_traverse {it ll : Addr} {ns : List (Addr × Nat)}
    (hlen : ns.length < SIZE_MOD) (m : Nat) :
    ∀ (st : State) (k : Nat) (c : Addr) (v : Nat), list_nodes st.heap ll ns →
      ns[k]? = some (c, v) → cursor_at st.heap it ll c k v →
      ∃ st2 c2 v2, iterate_n (some it) m st
          = some (List.replicate (min m (ns.length - 1 - k)) true
                    ++ List.replicate (m - (ns.length - 1 - k)) false, st2) ∧
        ns[k + min m (ns.length - 1 - k)]? = some (c2, v2) ∧
        cursor_at st2.heap it ll c2 (k + min m (ns.length - 1 - k)) v2 ∧
        list_nodes st2.heap ll ns := by
  induction m with
  | zero =>
    intro st k c v hn hc hi
    exact ⟨st, c, v, by simp [iterate_n], by simpa using hc, by simpa using hi, hn⟩
  | succ m ih =>
    intro st k c v hn hc hi
    obtain ⟨hk, _⟩ := List.getElem?_eq_some.1 hc
    rcases Nat.lt_or_ge (k + 1) ns.length with hlt | hge
    · obtain ⟨d, hd⟩ : ∃ d, ns.length - 1 - k = d + 1 := ⟨ns.length - 2 - k, by omega⟩
      have hd1 : ns.length - 1 - (k + 1) = d := by omega
      obtain ⟨c1, v1, hc1, _, _⟩ := split_at_index hlt
      obtain ⟨h1, hres, hcur1, hnodes, _⟩ := iterate_advance_at hn hc hc1 hi rfl
      have hmod : (k + 1) % SIZE_MOD = k + 1 := Nat.mod_eq_of_lt (by omega)
      have hi1 : cursor_at h1 it ll c1 (k + 1) v1 := by simpa [cursor_at, hmod] using hcur1
      obtain ⟨st2, c2, v2, hrun, hget, hcur2, hn2⟩ :=
        ih { st with heap := h1 } (k + 1) c1 v1 hnodes hc1 hi1
      rw [hd1] at hrun hget hcur2
      rw [hd]
      have hmin : min (m + 1) (d + 1) = min m d + 1 := by omega
      have hidx : k + (min m d + 1) = k + 1 + min m d := by omega
      refine ⟨st2, c2, v2, ?_, by rw [hmin, hidx]; exact hget,
        by rw [hmin, hidx]; exact hcur2, hn2⟩
      simp only [iterate_n, hres, hrun, hmin, List.replicate_succ, List.cons_append,
        Nat.add_sub_add_right]
    · have hd : ns.length - 1 - k = 0 := by omega
      have hlast := iterate_last_at hn hc (by omega) hi rfl
      obtain ⟨st2, c2, v2, hrun, hget, hcur2, hn2⟩ := ih st k c v hn hc hi
      rw [hd] at hrun hget hcur2 ⊢
      refine ⟨st2, c2, v2, ?_, by simpa using hget, by simpa using hcur2, hn2⟩
      simp only [Nat.min_zero, List.replicate_zero, List.nil_append, Nat.sub_zero] at hrun ⊢
      simp only [iterate_n, hlast, hrun, List.replicate_succ]

/-- C20: on a list with nodes `ns` (values `ns.map snd`, length `n < 2 ^ 64`),
the cursor that `linked_list_create_iterator(list, i)` returns for `i < n`
behaves as follows under `m` calls of `linked_list_iterate` in a row, for every
`m`: the first `min m (n - 1 - i)` calls return `true` and all the later ones
`false`; after them the cursor is on the node at position
`i + min m (n - 1 - i)`, with that index recorded and that position's value
cached; the list is as before. -/
theorem full_forward_traversal (st : State) (ll b : Addr) (f : MallocFn) (fr : FreeFn)
    (ns : List (Addr × Nat)) (i : Nat)
    (hn : list_nodes st.heap ll ns) (hlen : ns.length < SIZE_MOD)
    (hm : st.malloc_fptr = some f) (hf : st.free_fptr = some fr)
    (hb : f.run st.trace sizeof_iterator = some b) (hfresh : read st.heap b = none)
    (hi : i < ns.length) :
    ∃ st1, linked_list_create_iterator st (some ll) i = some (some b, st1) ∧
      ∀ m, ∃ st2 c v, iterate_n (some b) m st1
          = some (List.replicate (min m (ns.length - 1 - i)) true
                    ++ List.replicate (m - (ns.length - 1 - i)) false, st2) ∧
        ns[i + min m (ns.length - 1 - i)]? = some (c, v) ∧
        (ns.map Prod.snd)[i + min m (ns.length - 1 - i)]? = some v ∧
        i + min m (ns.length - 1 - i) < ns.length ∧
        cursor_at st2.heap b ll c (i + min m (ns.length - 1 - i)) v ∧
        list_nodes st2.heap ll ns := by
  obtain ⟨c, v, hget, hsplit, hlk⟩ := split_at_index hi
  have hn2 := hn
  rw [hsplit] at hn2
  obtain ⟨h2, hres, hcur, hnodes, _⟩ :=
    create_iterator_ok (ns.take i) (ns.drop (i + 1)) hn2 hm hf hb hfresh (by rw [hlk]; omega)
  rw [hlk] at hres hcur
  rw [← hsplit] at hnodes
  refine ⟨_, hres, fun m => ?_⟩
  obtain ⟨st2, c2, v2, hrun, hget2, hcur2, hn3⟩ :=
    iterate_n_traverse hlen m
      { st with heap := h2, trace := Event.malloc sizeof_iterator (some b) :: st.trace }
      i c v hnodes hget hcur
  exact ⟨st2, c2, v2, hrun, hget2, by simp [List.getElem?_map, hget2], by omega, hcur2, hn3⟩

/-- C20, at a concrete input: a cursor created at index 0 of `[5, 7]`. -/
theorem full_forward_traversal_witness :
    ∃ st1, linked_list_create_iterator st_two (some 1) 0 = some (some 4, st1) ∧
      ∀ m, ∃ st2 c v, iterate_n (some 4) m st1
          = some (List.replicate (min m ([((2 : Addr), 5), (3, 7)].length - 1 - 0)) true
                    ++ List.replicate (m - ([((2 : Addr), 5), (3, 7)].length - 1 - 0)) false,
                  st2) ∧
        [((2 : Addr), 5), (3, 7)][0 + min m ([((2 : Addr), 5), (3, 7)].length - 1 - 0)]?
          = some (c, v) ∧
        ([((2 : Addr), 5), (3, 7)].map Prod.snd)[
            0 + min m ([((2 : Addr), 5), (3, 7)].length - 1 - 0)]? = some v ∧
        0 + min m ([((2 : Addr), 5), (3, 7)].length - 1 - 0) < [((2 : Addr), 5), (3, 7)].length ∧
        cursor_at st2.heap 4 1 c (0 + min m ([((2 : Addr), 5), (3, 7)].length - 1 - 0)) v ∧
        list_nodes st2.heap 1 [(2, 5), (3, 7)] :=
  full_forward_traversal st_two 1 4 bump 0 [(2, 5), (3, 7)] 0 list_nodes_st_two (by decide)
    rfl rfl rfl rfl (by decide)

theorem create_run {st0 : State} {f : MallocFn} {a : Addr}
    (hm : st0.malloc_fptr = some f) (ha : f.run st0.trace sizeof_linked_list = some a) :
    ∃ h1, linked_list_create st0 = some (some a,
        { st0 with heap := h1,
                   trace := Event.malloc sizeof_linked_list (some a) :: st0.trace }) ∧
      list_nodes h1 a [] ∧ keys h1 = a :: keys st0.heap := by
  have hraw : read (alloc st0.heap a) a = some Obj.raw := by simp [read_alloc]
  have hs := store_of_live hraw (Obj.listObj ⟨none⟩)
  refine ⟨overwrite (alloc st0.heap a) a (Obj.listObj ⟨none⟩),
    by simp [linked_list_create, hm, call_malloc, ha, hs],
    ⟨none, by simp [read_list, read_store hs], rfl⟩, by rw [keys_store hs, keys_alloc]⟩

theorem consistent_free (st : State) {h2 : Heap} {t : Addr}
    (hk : keys h2 = (keys st.heap).filter fun b => decide (b ≠ t)) (hc : consistent st) :
    consistent { st with heap := h2, trace := Event.free t :: st.trace } := by
  unfold consistent at hc ⊢
  simp only [live]
  rw [hk, hc]

/-- C11: from a state with both slots registered and an allocator that always
succeeds and never hands out a block in use: `linked_list_create` returns a
list; `insert_front(5)`, `insert_end(7)` and `insert(1, 6)` return `true` and
the list holds `[5, 6, 7]`; `find(6)` returns 1; `remove(0)` returns `true`,
the list holds `[6, 7]` and `size` returns 2; `create_iterator(list, 1)`
returns a cursor with recorded index 1 and cached value 7, and
`linked_list_iterate` on it returns `false` and leaves the state, so the
cursor, as it was. -/
theorem end_to_end_scenario (st0 : State) (f : MallocFn) (fr : FreeFn)
    (hm : st0.malloc_fptr = some f) (hf : st0.free_fptr = some fr)
    (hwb : well_behaved f) (htotal : ∀ tr size, ∃ a, f.run tr size = some a)
    (hc : consistent st0) :
    ∃ ll st1 st2 st3 st4 st5 it c st6,
      linked_list_create st0 = some (some ll, st1) ∧
      list_holds st1.heap ll [] ∧
      linked_list_insert_front st1 (some ll) 5 = some (true, st2) ∧
      linked_list_insert_end st2 (some ll) 7 = some (true, st3) ∧
      linked_list_insert st3 (some ll) 1 6 = some (true, st4) ∧
      list_holds st4.heap ll [5, 6, 7] ∧
      linked_list_find st4 (some ll) 6 = some 1 ∧
      linked_list_remove st4 (some ll) 0 = some (true, st5) ∧
      list_holds st5.heap ll [6, 7] ∧
      linked_list_size st5 (some ll) = some 2 ∧
      linked_list_create_iterator st5 (some ll) 1 = some (some it, st6) ∧
      cursor_at st6.heap it ll c 1 7 ∧
      linked_list_iterate st6 (some it) = some (false, st6) := by
  have hone : 1 < SIZE_MOD := by decide
  -- create
  obtain ⟨ll, hll⟩ := htotal st0.trace sizeof_linked_list
  obtain ⟨h1, hcreate, hn1, hk1⟩ := create_run hm hll
  have hc1 := consistent_malloc_some st0 sizeof_linked_list hk1 hc
  -- insert_front 5
  obtain ⟨a1, ha1⟩ := htotal (Event.malloc sizeof_linked_list (some ll) :: st0.trace) sizeof_node
  obtain ⟨h2, hfront, hn2, hk2⟩ := @insert_front_ok
    { st0 with heap := h1, trace := Event.malloc sizeof_linked_list (some ll) :: st0.trace }
    ll a1 f 5 [] hn1 hm ha1 (fresh_of_consistent hc1 hwb ha1)
  have hc2 := consistent_malloc_some _ sizeof_node hk2 hc1
  -- insert_end 7
  obtain ⟨a2, ha2⟩ := htotal (Event.malloc sizeof_node (some a1) ::
    Event.malloc sizeof_linked_list (some ll) :: st0.trace) sizeof_node
  obtain ⟨h3, hend, hn3, hk3⟩ := @insert_end_ok
    { st0 with heap := h2, trace := Event.malloc sizeof_node (some a1) ::
        Event.malloc sizeof_linked_list (some ll) :: st0.trace }
    ll a2 f 7 [(a1, 5)] hn2 hm ha2 (fresh_of_consistent hc2 hwb ha2)
  have hc3 := consistent_malloc_some _ sizeof_node hk3 hc2
  -- insert 1 6
  obtain ⟨a3, ha3⟩ := htotal (Event.malloc sizeof_node (some a2) ::
    Event.malloc sizeof_node (some a1) ::
    Event.malloc sizeof_linked_list (some ll) :: st0.trace) sizeof_node
  obtain ⟨h4, hins, hn4, hk4⟩ := @insert_ok
    { st0 with heap := h3, trace := Event.malloc sizeof_node (some a2) ::
        Event.malloc sizeof_node (some a1) ::
        Event.malloc sizeof_linked_list (some ll) :: st0.trace }
    ll a3 f fr 6 [(a1, 5)] [(a2, 7)] hn3 hm hf ha3 (fresh_of_consistent hc3 hwb ha3) hone
  have hc4 := consistent_malloc_some _ sizeof_node hk4 hc3
  -- find 6
  have hfind := @find_first
    { st0 with heap := h4, trace := Event.malloc sizeof_node (some a3) ::
        Event.malloc sizeof_node (some a2) :: Event.malloc sizeof_node (some a1) ::
        Event.malloc sizeof_linked_list (some ll) :: st0.trace }
    ll a3 6 [(a1, 5)] [(a2, 7)] hn4 (by simp) hone
  -- remove 0
  obtain ⟨h5, hrem, hn5, hk5⟩ := @remove_ok
    { st0 with heap := h4, trace := Event.malloc sizeof_node (some a3) ::
        Event.malloc sizeof_node (some a2) :: Event.malloc sizeof_node (some a1) ::
        Event.malloc sizeof_linked_list (some ll) :: st0.trace }
    ll a1 fr 5 [] [(a3, 6), (a2, 7)] hn4 hf (by decide)
  have hc5 := consistent_free _ hk5 hc4
  have hsize := @size_of_nodes
    { st0 with heap := h5, trace := Event.free a1 :: Event.malloc sizeof_node (some a3) ::
        Event.malloc sizeof_node (some a2) :: Event.malloc sizeof_node (some a1) ::
        Event.malloc sizeof_linked_list (some ll) :: st0.trace }
    ll [(a3, 6), (a2, 7)] hn5
  -- create_iterator 1
  obtain ⟨b, hb⟩ := htotal (Event.free a1 :: Event.malloc sizeof_node (some a3) ::
    Event.malloc sizeof_node (some a2) :: Event.malloc sizeof_node (some a1) ::
    Event.malloc sizeof_linked_list (some ll) :: st0.trace) sizeof_iterator
  obtain ⟨h6, hit, hcur, hn6, _⟩ := @create_iterator_ok
    { st0 with heap := h5, trace := Event.free a1 :: Event.malloc sizeof_node (some a3) ::
        Event.malloc sizeof_node (some a2) :: Event.malloc sizeof_node (some a1) ::
        Event.malloc sizeof_linked_list (some ll) :: st0.trace }
    ll b a2 f fr 7 [(a3, 6)] [] hn5 hm hf hb (fresh_of_consistent hc5 hwb hb) hone
  have hlast := @iterate_last
    { st0 with heap := h6, trace := Event.malloc sizeof_iterator (some b) ::
        Event.free a1 :: Event.malloc sizeof_node (some a3) ::
        Event.malloc sizeof_node (some a2) :: Event.malloc sizeof_node (some a1) ::
        Event.malloc sizeof_linked_list (some ll) :: st0.trace }
    b ll a2 _ 7 [(a3, 6)] hn6 hcur rfl
  exact ⟨ll, _, _, _, _, _, b, a2, _, hcreate, ⟨_, hn1, rfl⟩, hfront, hend, hins,
    ⟨_, hn4, rfl⟩, hfind, hrem, ⟨_, hn5, rfl⟩, hsize, hit, hcur, hlast⟩

/-- C11, at a concrete input: the scenario run from the initial state with the
bump allocator. -/
theorem end_to_end_scenario_witness :
    ∃ ll st1 st2 st3 st4 st5 it c st6,
      linked_list_create st_init = some (some ll, st1) ∧
      list_holds st1.heap ll [] ∧
      linked_list_insert_front st1 (some ll) 5 = some (true, st2) ∧
      linked_list_insert_end st2 (some ll) 7 = some (true, st3) ∧
      linked_list_insert st3 (some ll) 1 6 = some (true, st4) ∧
      list_holds st4.heap ll [5, 6, 7] ∧
      linked_list_find st4 (some ll) 6 = some 1 ∧
      linked_list_remove st4 (some ll) 0 = some (true, st5) ∧
      list_holds st5.heap ll [6, 7] ∧
      linked_list_size st5 (some ll) = some 2 ∧
      linked_list_create_iterator st5 (some ll) 1 = some (some it, st6) ∧
      cursor_at st6.heap it ll c 1 7 ∧
      linked_list_iterate st6 (some it) = some (false, st6) :=
  end_to_end_scenario st_init bump 0 rfl rfl bump_well_behaved (fun _ _ => ⟨_, rfl⟩) rfl

theorem insert_zero_eq_insert_front (st : State) (ll : Option Addr) (v : Nat) {fr : FreeFn}
    (hf : st.free_fptr = some fr) :
    linked_list_insert st ll 0 v = linked_list_insert_front st ll v := by
  cases ll with
  | none => simp [linked_list_insert, linked_list_insert_front]
  | some l =>
    rcases Option.eq_none_or_eq_some st.malloc_fptr with hm | ⟨f, hm⟩
    · simp [linked_list_insert, linked_list_insert_front, hm]
    rcases Option.eq_none_or_eq_some (f.run st.trace sizeof_node) with ha | ⟨a, ha⟩
    · simp [linked_list_insert, linked_list_insert_front, hm, hf, call_malloc, ha]
    rcases Option.eq_none_or_eq_some (read_list (alloc st.heap a) l) with hl | ⟨L, hl⟩
    · simp [linked_list_insert, linked_list_insert_front, hm, hf, call_malloc, ha, walk_slot,
        load_slot, hl]
    rcases Option.eq_none_or_eq_some L.head with hh | ⟨x, hh⟩
    · simp [linked_list_insert, linked_list_insert_front, hm, hf, call_malloc, ha, walk_slot,
        load_slot, hl, hh]
    · simp [linked_list_insert, linked_list_insert_front, hm, hf, call_malloc, ha, walk_slot,
        load_slot, hl, hh]

theorem insert_length_eq_insert_end {st : State} {ll a : Addr} {f : MallocFn} {fr : FreeFn}
    (v : Nat) (ns : List (Addr × Nat)) (hn : list_nodes st.heap ll ns)
    (hm : st.malloc_fptr = some f) (hf : st.free_fptr = some fr)
    (ha : f.run st.trace sizeof_node = some a) (hfresh : read st.heap a = none)
    (hk : ns.length < SIZE_MOD) :
    linked_list_insert st (some ll) ns.length v = linked_list_insert_end st (some ll) v := by
  have hlen := list_nodes_length_le hn
  obtain ⟨p0, hl0, hc0⟩ := hn
  have hlast := last_slot_chain ns (Slot.head ll) (st.heap.length + 1)
    (load_slot_head hl0) hc0 (by omega)
  obtain ⟨p, hl, hc⟩ := list_nodes_alloc ⟨p0, hl0, hc0⟩ hfresh
  have hraw : read (alloc st.heap a) a = some Obj.raw := by simp [read_alloc]
  have hw := walk_slot_chain [] hk ns (Slot.head ll) (ns.length + 1) 0
    (load_slot_head hl) (by simpa using hc) (Or.inl (by simp)) (by omega)
  obtain ⟨q, h1, h2, hq, hnone, _, hs1, hs2, _, _⟩ :=
    splice v ns [] hl (by simpa using hc) hraw
  have hq0 := hnone rfl
  subst hq0
  simp [linked_list_insert, linked_list_insert_end, hm, hf, hlast, call_malloc, ha, hw, hq,
    hs1, hs2]

/-- C15: with both slots registered and the node allocation handing out a
fresh block, on a list holding `l`: `linked_list_insert(list, 0, v)` gives the
same result and state as `linked_list_insert_front(list, v)`, namely `true`
and a list holding `v :: l`; `linked_list_insert(list, length l, v)` gives the
same result and state as `linked_list_insert_end(list, v)`, namely `true` and
a list holding `l ++ [v]`. -/
theorem insert_refines_front_and_end (st : State) (ll a : Addr) (f : MallocFn) (fr : FreeFn)
    (l : List Nat) (v : Nat)
    (hl : list_holds st.heap ll l) (hlen : l.length < SIZE_MOD)
    (hm : st.malloc_fptr = some f) (hf : st.free_fptr = some fr)
    (ha : f.run st.trace sizeof_node = some a) (hfresh : read st.heap a = none) :
    linked_list_insert st (some ll) 0 v = linked_list_insert_front st (some ll) v ∧
    (∃ st1, linked_list_insert_front st (some ll) v = some (true, st1) ∧
      list_holds st1.heap ll (v :: l)) ∧
    linked_list_insert st (some ll) l.length v = linked_list_insert_end st (some ll) v ∧
    (∃ st2, linked_list_insert_end st (some ll) v = some (true, st2) ∧
      list_holds st2.heap ll (l ++ [v])) := by
  obtain ⟨ns, hn, rfl⟩ := hl
  simp only [List.length_map] at hlen ⊢
  obtain ⟨h2, hfront, hn2, _⟩ := insert_front_ok v ns hn hm ha hfresh
  obtain ⟨h3, hend, hn3, _⟩ := insert_end_ok v ns hn hm ha hfresh
  exact ⟨insert_zero_eq_insert_front st (some ll) v hf, ⟨_, hfront, _, hn2, rfl⟩,
    insert_length_eq_insert_end v ns hn hm hf ha hfresh hlen, ⟨_, hend, _, hn3, by simp⟩⟩

/-- C15, at a concrete input: inserting 9 into `[5, 7]`. -/
theorem insert_refines_front_and_end_witness :
    linked_list_insert st_two (some 1) 0 9 = linked_list_insert_front st_two (some 1) 9 ∧
    (∃ st1, linked_list_insert_front st_two (some 1) 9 = some (true, st1) ∧
      list_holds st1.heap 1 (9 :: [5, 7])) ∧
    linked_list_insert st_two (some 1) ([5, 7] : List Nat).length 9
      = linked_list_insert_end st_two (some 1) 9 ∧
    (∃ st2, linked_list_insert_end st_two (some 1) 9 = some (true, st2) ∧
      list_holds st2.heap 1 ([5, 7] ++ [9])) :=
  insert_refines_front_and_end st_two 1 4 bump 0 [5, 7] 9 list_holds_st_two (by decide)
    rfl rfl rfl rfl

/-- C18: with both slots registered and the allocations handing out fresh
blocks, on a list with nodes `ns`: `linked_list_insert` with `k > length` and
`linked_list_create_iterator` with `k ≥ length` fail after exactly one call of
the allocate routine followed by one call of the release routine on the block
just handed out, the heap being as before the call; a successful
`linked_list_insert` makes one call of the allocate routine, none of the
release routine, and the heap gains that block; a successful
`linked_list_remove` makes one call of the release routine, on the removed
node, none of the allocate routine, and the heap loses that block. -/
theorem allocator_calls_per_operation (st : State) (ll a b : Addr) (f : MallocFn)
    (fr : FreeFn) (ns : List (Addr × Nat)) (k v : Nat)
    (hn : list_nodes st.heap ll ns)
    (hm : st.malloc_fptr = some f) (hf : st.free_fptr = some fr)
    (ha : f.run st.trace sizeof_node = some a) (hfresh : read st.heap a = none)
    (hb : f.run st.trace sizeof_iterator = some b) (hbfresh : read st.heap b = none)
    (hk : k < SIZE_MOD) :
    (ns.length < k → linked_list_insert st (some ll) k v = some (false,
        { st with trace := Event.free a :: Event.malloc sizeof_node (some a) :: st.trace })) ∧
    (ns.length ≤ k → linked_list_create_iterator st (some ll) k = some (none,
        { st with trace :=
            Event.free b :: Event.malloc sizeof_iterator (some b) :: st.trace })) ∧
    (k ≤ ns.length → ∃ h2, linked_list_insert st (some ll) k v = some (true,
        { st with heap := h2, trace := Event.malloc sizeof_node (some a) :: st.trace }) ∧
      keys h2 = a :: keys st.heap) ∧
    (∀ t u, ns[k]? = some (t, u) → ∃ h2, linked_list_remove st (some ll) k = some (true,
        { st with heap := h2, trace := Event.free t :: st.trace }) ∧
      keys h2 = (keys st.heap).filter fun x => decide (x ≠ t)) := by
  refine ⟨fun hlt => insert_out_of_range v k ns hn hm hf ha hfresh hk hlt,
    fun hle => create_iterator_out_of_range k ns hn hm hf hb hbfresh hk hle,
    fun hle => ?_, fun t u hget => ?_⟩
  · have hsplit : ns.take k ++ ns.drop k = ns := List.take_append_drop k ns
    have hlen : (ns.take k).length = k := by simp [hle]
    have hn2 := hn
    rw [← hsplit] at hn2
    obtain ⟨h2, hres, _, hkeys⟩ := insert_ok v (ns.take k) (ns.drop k) hn2 hm hf ha hfresh
      (by rw [hlen]; exact hk)
    rw [hlen] at hres
    exact ⟨h2, hres, hkeys⟩
  · obtain ⟨hsplit, hlen⟩ := split_of_getElem hget
    have hn2 := hn
    rw [hsplit] at hn2
    obtain ⟨h2, hres, _, hkeys⟩ := remove_ok (ns.take k) (ns.drop (k + 1)) hn2 hf
      (by rw [hlen]; exact hk)
    rw [hlen] at hres
    exact ⟨h2, hres, hkeys⟩

/-- C18, at concrete inputs on the list `[5, 7]`: index 3 is out of range for
`linked_list_insert` and for `linked_list_create_iterator`, index 2 (the
length) is out of range for `linked_list_create_iterator`; each call fails
after one allocation and one release of block 4, the state being otherwise as
before.  At index 1 the insert succeeds with the one allocation of block 4,
and the remove succeeds with the one release of node 3. -/
theorem allocator_calls_per_operation_witness :
    linked_list_insert st_two (some 1) 3 9 = some (false,
        { st_two with
          trace := Event.free 4 :: Event.malloc sizeof_node (some 4) :: st_two.trace }) ∧
    linked_list_create_iterator st_two (some 1) 3 = some (none,
        { st_two with
          trace := Event.free 4 :: Event.malloc sizeof_iterator (some 4) :: st_two.trace }) ∧
    linked_list_create_iterator st_two (some 1) 2 = some (none,
        { st_two with
          trace := Event.free 4 :: Event.malloc sizeof_iterator (some 4) :: st_two.trace }) ∧
    (∃ h2, linked_list_insert st_two (some 1) 1 9 = some (true,
        { st_two with heap := h2,
                      trace := Event.malloc sizeof_node (some 4) :: st_two.trace }) ∧
      keys h2 = 4 :: keys st_two.heap) ∧
    (∃ h2, linked_list_remove st_two (some 1) 1 = some (true,
        { st_two with heap := h2, trace := Event.free 3 :: st_two.trace }) ∧
      keys h2 = (keys st_two.heap).filter fun x => decide (x ≠ 3)) :=
  ⟨(allocator_calls_per_operation st_two 1 4 4 bump 0 [(2, 5), (3, 7)] 3 9 list_nodes_st_two
      rfl rfl rfl rfl rfl rfl (by decide)).1 (by decide),
   (allocator_calls_per_operation st_two 1 4 4 bump 0 [(2, 5), (3, 7)] 3 9 list_nodes_st_two
      rfl rfl rfl rfl rfl rfl (by decide)).2.1 (by decide),
   (allocator_calls_per_operation st_two 1 4 4 bump 0 [(2, 5), (3, 7)] 2 9 list_nodes_st_two
      rfl rfl rfl rfl rfl rfl (by decide)).2.1 (by decide),
   (allocator_calls_per_operation st_two 1 4 4 bump 0 [(2, 5), (3, 7)] 1 9 list_nodes_st_two
      rfl rfl rfl rfl rfl rfl (by decide)).2.2.1 (by decide),
   (allocator_calls_per_operation st_two 1 4 4 bump 0 [(2, 5), (3, 7)] 1 9 list_nodes_st_two
      rfl rfl rfl rfl rfl rfl (by decide)).2.2.2 3 7 rfl⟩

/-- C19: with the allocate slot registered, the node allocation handing out a
fresh block, and the release slot unset, on a list holding `l`:
`linked_list_insert(list, 0, v)` returns `false` and leaves the whole state as
it was (list unchanged, allocate routine not called), while
`linked_list_insert_front(list, v)` and `linked_list_insert_end(list, v)`
return `true` and the list then holds `v :: l`, respectively `l ++ [v]`. -/
theorem insert_needs_release_slot (st : State) (ll a : Addr) (f : MallocFn)
    (l : List Nat) (v : Nat)
    (hl : list_holds st.heap ll l)
    (hm : st.malloc_fptr = some f) (hf : st.free_fptr = none)
    (ha : f.run st.trace sizeof_node = some a) (hfresh : read st.heap a = none) :
    linked_list_insert st (some ll) 0 v = some (false, st) ∧
    (∃ st1, linked_list_insert_front st (some ll) v = some (true, st1) ∧
      list_holds st1.heap ll (v :: l)) ∧
    (∃ st2, linked_list_insert_end st (some ll) v = some (true, st2) ∧
      list_holds st2.heap ll (l ++ [v])) := by
  obtain ⟨ns, hn, rfl⟩ := hl
  obtain ⟨h2, hfront, hn2, _⟩ := insert_front_ok v ns hn hm ha hfresh
  obtain ⟨h3, hend, hn3, _⟩ := insert_end_ok v ns hn hm ha hfresh
  exact ⟨by simp [linked_list_insert, hf], ⟨_, hfront, _, hn2, rfl⟩, ⟨_, hend, _, hn3, by simp⟩⟩

/-- C19, at a concrete input: the list `[5, 7]` with the release slot unset. -/
theorem insert_needs_release_slot_witness :
    linked_list_insert { st_two with free_fptr := none } (some 1) 0 9
      = some (false, { st_two with free_fptr := none }) ∧
    (∃ st1, linked_list_insert_front { st_two with free_fptr := none } (some 1) 9
        = some (true, st1) ∧ list_holds st1.heap 1 (9 :: [5, 7])) ∧
    (∃ st2, linked_list_insert_end { st_two with free_fptr := none } (some 1) 9
        = some (true, st2) ∧ list_holds st2.heap 1 ([5, 7] ++ [9])) :=
  insert_needs_release_slot { st_two with free_fptr := none } 1 4 bump [5, 7] 9
    list_holds_st_two rfl rfl rfl rfl

/-! ## The slots under the library functions -/

theorem call_malloc_slots {st st1 : State} {f : MallocFn} {size : Nat} {r : Option Addr}
    (h : call_malloc st f size = (r, st1)) :
    st1.malloc_fptr = st.malloc_fptr ∧ st1.free_fptr = st.free_fptr := by
  unfold call_malloc at h
  split at h <;> cases h <;> exact ⟨rfl, rfl⟩

theorem create_slots {st st1 : State} {r : Option Addr}
    (h : linked_list_create st = some (r, st1)) :
    st1.malloc_fptr = st.malloc_fptr ∧ st1.free_fptr = st.free_fptr := by
  unfold linked_list_create at h
  split at h
  · cases h; exact ⟨rfl, rfl⟩
  · split at h
    · rename_i hcm; cases h; have hs := call_malloc_slots hcm; exact hs
    · rename_i hcm
      split at h
      · cases h
      · cases h; have hs := call_malloc_slots hcm; exact hs

theorem delete_loop_slots (fuel : Nat) :
    ∀ {st st1 : State} {p : Option Addr}, delete_loop fuel st p = some st1 →
      st1.malloc_fptr = st.malloc_fptr ∧ st1.free_fptr = st.free_fptr := by
  induction fuel with
  | zero => intro st st1 p h; simp [delete_loop] at h
  | succ fuel ih =>
    intro st st1 p h
    cases p with
    | none => simp only [delete_loop, Option.some.injEq] at h; subst h; exact ⟨rfl, rfl⟩
    | some a =>
      simp only [delete_loop] at h
      split at h
      · cases h
      · have hs := ih h; exact hs

theorem delete_slots {st st1 : State} {ll : Option Addr} {b : Bool}
    (h : linked_list_delete st ll = some (b, st1)) :
    st1.malloc_fptr = st.malloc_fptr ∧ st1.free_fptr = st.free_fptr := by
  unfold linked_list_delete at h
  split at h
  · split at h
    · cases h
    · split at h
      · cases h
      · rename_i hd; cases h; have hs := delete_loop_slots _ hd; exact hs
  · cases h; exact ⟨rfl, rfl⟩

theorem insert_end_slots {st st1 : State} {ll : Option Addr} {data : Nat} {b : Bool}
    (h : linked_list_insert_end st ll data = some (b, st1)) :
    st1.malloc_fptr = st.malloc_fptr ∧ st1.free_fptr = st.free_fptr := by
  unfold linked_list_insert_end at h
  split at h
  · split at h
    · cases h
    · split at h
      · rename_i hcm; cases h; have hs := call_malloc_slots hcm; exact hs
      · rename_i hcm
        split at h
        · cases h
        · split at h
          · cases h
          · cases h; have hs := call_malloc_slots hcm; exact hs
  · cases h; exact ⟨rfl, rfl⟩

theorem insert_front_slots {st st1 : State} {ll : Option Addr} {data : Nat} {b : Bool}
    (h : linked_list_insert_front st ll data = some (b, st1)) :
    st1.malloc_fptr = st.malloc_fptr ∧ st1.free_fptr = st.free_fptr := by
  unfold linked_list_insert_front at h
  split at h
  · split at h
    · rename_i hcm; cases h; have hs := call_malloc_slots hcm; exact hs
    · rename_i hcm
      split at h
      · cases h
      · split at h
        · cases h
        · split at h
          · cases h
          · cases h; have hs := call_malloc_slots hcm; exact hs
  · cases h; exact ⟨rfl, rfl⟩

theorem insert_slots {st st1 : State} {ll : Option Addr} {index data : Nat} {b : Bool}
    (h : linked_list_insert st ll index data = some (b, st1)) :
    st1.malloc_fptr = st.malloc_fptr ∧ st1.free_fptr = st.free_fptr := by
  unfold linked_list_insert at h
  split at h
  · split at h
    · rename_i hcm; cases h; have hs := call_malloc_slots hcm; exact hs
    · rename_i hcm
      split at h
      · cases h
      · split at h
        · cases h; have hs := call_malloc_slots hcm; exact hs
        · split at h
          · cases h
          · split at h
            · cases h
            · split at h
              · cases h
              · cases h; have hs := call_malloc_slots hcm; exact hs
  · cases h; exact ⟨rfl, rfl⟩

theorem remove_slots {st st1 : State} {ll : Option Addr} {index : Nat} {b : Bool}
    (h : linked_list_remove st ll index = some (b, st1)) :
    st1.malloc_fptr = st.malloc_fptr ∧ st1.free_fptr = st.free_fptr := by
  unfold linked_list_remove at h
  split at h
  · split at h
    · cases h
    · split at h
      · cases h; exact ⟨rfl, rfl⟩
      · split at h
        · cases h
        · cases h; exact ⟨rfl, rfl⟩
        · split at h
          · cases h
          · split at h
            · cases h
            · cases h; exact ⟨rfl, rfl⟩
  · cases h; exact ⟨rfl, rfl⟩

theorem create_iterator_slots {st st1 : State} {ll : Option Addr} {index : Nat}
    {r : Option Addr} (h : linked_list_create_iterator st ll index = some (r, st1)) :
    st1.malloc_fptr = st.malloc_fptr ∧ st1.free_fptr = st.free_fptr := by
  unfold linked_list_create_iterator at h
  split at h
  · split at h
    · rename_i hcm; cases h; have hs := call_malloc_slots hcm; exact hs
    · rename_i hcm
      split at h
      · cases h
      · split at h
        · cases h
        · cases h; have hs := call_malloc_slots hcm; exact hs
        · split at h
          · cases h; have hs := call_malloc_slots hcm; exact hs
          · split at h
            · cases h
            · split at h
              · cases h
              · cases h; have hs := call_malloc_slots hcm; exact hs
  · cases h; exact ⟨rfl, rfl⟩

theorem iterate_slots {st st1 : State} {iter : Option Addr} {b : Bool}
    (h : linked_list_iterate st iter = some (b, st1)) :
    st1.malloc_fptr = st.malloc_fptr ∧ st1.free_fptr = st.free_fptr := by
  unfold linked_list_iterate at h
  split at h
  · cases h; exact ⟨rfl, rfl⟩
  · split at h
    · cases h
    · split at h
      · cases h; exact ⟨rfl, rfl⟩
      · split at h
        · cases h
        · split at h
          · cases h; exact ⟨rfl, rfl⟩
          · split at h
            · cases h
            · split at h
              · cases h
              · cases h; exact ⟨rfl, rfl⟩

theorem step_keeps_slots_set {st st1 : State} (c : Call) (h : step st c = some st1) :
    (st.malloc_fptr ≠ none → st1.malloc_fptr ≠ none) ∧
    (st.free_fptr ≠ none → st1.free_fptr ≠ none) := by
  have key : ∀ {s1 : State}, (s1.malloc_fptr = st.malloc_fptr ∧ s1.free_fptr = st.free_fptr) →
      (st.malloc_fptr ≠ none → s1.malloc_fptr ≠ none) ∧
      (st.free_fptr ≠ none → s1.free_fptr ≠ none) := by
    intro s1 hs
    rw [hs.1, hs.2]
    exact ⟨id, id⟩
  cases c with
  | create =>
    obtain ⟨⟨r, s⟩, hr, rfl⟩ := Option.map_eq_some'.1 h
    exact key (create_slots hr)
  | delete ll =>
    obtain ⟨⟨r, s⟩, hr, rfl⟩ := Option.map_eq_some'.1 h
    exact key (delete_slots hr)
  | size ll =>
    obtain ⟨r, hr, rfl⟩ := Option.map_eq_some'.1 h
    exact key ⟨rfl, rfl⟩
  | insert_end ll data =>
    obtain ⟨⟨r, s⟩, hr, rfl⟩ := Option.map_eq_some'.1 h
    exact key (insert_end_slots hr)
  | insert_front ll data =>
    obtain ⟨⟨r, s⟩, hr, rfl⟩ := Option.map_eq_some'.1 h
    exact key (insert_front_slots hr)
  | insert ll index data =>
    obtain ⟨⟨r, s⟩, hr, rfl⟩ := Option.map_eq_some'.1 h
    exact key (insert_slots hr)
  | find ll data =>
    obtain ⟨r, hr, rfl⟩ := Option.map_eq_some'.1 h
    exact key ⟨rfl, rfl⟩
  | remove ll index =>
    obtain ⟨⟨r, s⟩, hr, rfl⟩ := Option.map_eq_some'.1 h
    exact key (remove_slots hr)
  | create_iterator ll index =>
    obtain ⟨⟨r, s⟩, hr, rfl⟩ := Option.map_eq_some'.1 h
    exact key (create_iterator_slots hr)
  | delete_iterator iter =>
    simp only [step, Option.some.injEq] at h
    subst h
    unfold linked_list_delete_iterator
    split <;> exact key ⟨rfl, rfl⟩
  | iterate iter =>
    obtain ⟨⟨r, s⟩, hr, rfl⟩ := Option.map_eq_some'.1 h
    exact key (iterate_slots hr)
  | register_malloc fn =>
    simp only [step, Option.some.injEq] at h
    subst h
    cases fn with
    | none => exact key ⟨rfl, rfl⟩
    | some f => exact ⟨fun _ => by simp [linked_list_register_malloc], id⟩
  | register_free fn =>
    simp only [step, Option.some.injEq] at h
    subst h
    cases fn with
    | none => exact key ⟨rfl, rfl⟩
    | some f => exact ⟨id, fun _ => by simp [linked_list_register_free]⟩

theorem run_calls_keeps_slots_set (cs : List Call) :
    ∀ {st st1 : State}, run_calls st cs = some st1 →
      (st.malloc_fptr ≠ none → st1.malloc_fptr ≠ none) ∧
      (st.free_fptr ≠ none → st1.free_fptr ≠ none) := by
  induction cs with
  | nil =>
    intro st st1 h
    simp only [run_calls, Option.some.injEq] at h
    subst h
    exact ⟨id, id⟩
  | cons c cs ih =>
    intro st st1 h
    simp only [run_calls] at h
    split at h
    · cases h
    · rename_i s hs
      have h1 := step_keeps_slots_set c hs
      have h2 := ih h
      exact ⟨fun x => h2.1 (h1.1 x), fun x => h2.2 (h1.2 x)⟩

/-- C16: `linked_list_register_malloc` and `linked_list_register_free` return
`false` on a `NULL` argument and leave the state, so the slot, as it was; on a
routine `fn` they return `true` and the slot holds `fn`, nothing else being
changed.  Through any sequence of calls of the library's functions, with any
arguments, a slot that is set at the start is set at the end. -/
theorem registration_keeps_slots_set (st st1 : State) (cs : List Call)
    (hrun : run_calls st cs = some st1) :
    linked_list_register_malloc st none = (false, st) ∧
    (∀ fn, linked_list_register_malloc st (some fn)
      = (true, { st with malloc_fptr := some fn })) ∧
    linked_list_register_free st none = (false, st) ∧
    (∀ fn, linked_list_register_free st (some fn)
      = (true, { st with free_fptr := some fn })) ∧
    (st.malloc_fptr ≠ none → st1.malloc_fptr ≠ none) ∧
    (st.free_fptr ≠ none → st1.free_fptr ≠ none) :=
  ⟨rfl, fun _ => rfl, rfl, fun _ => rfl, run_calls_keeps_slots_set cs hrun⟩

/-- C16, at a concrete input: from the initial state, a `NULL` registration,
a create, an insert and another `NULL` registration. -/
theorem registration_keeps_slots_set_witness :
    linked_list_register_malloc st_init none = (false, st_init) ∧
    (∀ fn, linked_list_register_malloc st_init (some fn)
      = (true, { st_init with malloc_fptr := some fn })) ∧
    linked_list_register_free st_init none = (false, st_init) ∧
    (∀ fn, linked_list_register_free st_init (some fn)
      = (true, { st_init with free_fptr := some fn })) ∧
    (st_init.malloc_fptr ≠ none →
      ({ st_init with
          heap := [(2, Obj.nodeObj ⟨5, none⟩), (1, Obj.listObj ⟨some 2⟩)],
          trace := [Event.malloc sizeof_node (some 2),
                    Event.malloc sizeof_linked_list (some 1)] } : State).malloc_fptr ≠ none) ∧
    (st_init.free_fptr ≠ none →
      ({ st_init with
          heap := [(2, Obj.nodeObj ⟨5, none⟩), (1, Obj.listObj ⟨some 2⟩)],
          trace := [Event.malloc sizeof_node (some 2),
                    Event.malloc sizeof_linked_list (some 1)] } : State).free_fptr ≠ none) :=
  registration_keeps_slots_set st_init _
    [Call.register_malloc none, Call.create, Call.insert_front (some 1) 5,
     Call.register_free none] rfl

end LinkedList
